import Mathlib

/-!
# Verification of the otak-aws diagram interchange subsystem

Shallow embedding of the diagram interchange code of the repository:

* `src/src/utils/compression.ts` — the serialization codec
  (`optimizeDataForCompression`, `restoreDataFromOptimized`,
  `compressData`, `decompressData`);
* `src/src/App.tsx` — the hierarchy resolver (`isItemInContainer`,
  `findParentContainer`, `wouldCreateCircularReference`), the DSL parser
  (`parseEraserFormat`) and the two emitters (`exportContainerRecursive`,
  `exportFlowchartContainerRecursive`).

JavaScript conventions are made explicit: a possibly-`null`/`undefined`
string field becomes `Option String` (where `none` models both an absent
key and a `null`/`undefined` value, which the code never distinguishes),
JavaScript truthiness of such a field is `optTruthy`, numbers are `Int`,
and the external collaborators (`LZString`, `JSON`, `atob`) are explicit
function parameters.
-/

/-- JavaScript truthiness of a nullable string: `null`, `undefined` and
`""` are falsy, every other string is truthy. -/
def optTruthy : Option String → Bool
  | none => false
  | some s => s ≠ ""

/-- Model of JavaScript `String.prototype.trim`: strip whitespace from
both ends (structurally recursive so that concrete instances compute). -/
def jsTrim (s : String) : String :=
  ⟨((s.data.dropWhile Char.isWhitespace).reverse.dropWhile Char.isWhitespace).reverse⟩

/-! ## Serialization codec (`src/src/utils/compression.ts`)

The codec operates on the `ArchitectureData` envelope.  `boardItems`,
`containers` and `connections` are typed here with exactly the fields the
codec reads and writes (`optimizeDataForCompression` rebuilds each record
from this fixed field list).  The TypeScript field `type` is rendered as
`itype`/`ctype` (`type` is reserved in Lean); `from`/`to` on a connection
are rendered `cfrom`/`cto` (`from` is reserved in Lean). -/

structure CItem where
  id : String
  name : String
  color : String
  category : String
  x : Int
  y : Int
  itype : String
  customName : Option String
  parentContainerId : Option String
deriving DecidableEq

structure CContainer where
  id : String
  name : String
  color : String
  x : Int
  y : Int
  width : Int
  height : Int
  ctype : String
  borderStyle : Option String
  parentContainerId : Option String
deriving DecidableEq

structure CConnection where
  id : String
  cfrom : String
  cto : String
  label : Option String
deriving DecidableEq

structure CSettings where
  zoomLevel : Option Int
deriving DecidableEq

structure ArchitectureData where
  version : String
  timestamp : Int
  boardItems : List CItem
  containers : List CContainer
  connections : List CConnection
  settings : Option CSettings
deriving DecidableEq

/-- `optimizeDataForCompression` (compression.ts lines 22–97): strips
default values field by field.  `customName` is kept only when truthy and
different from `name`; `parentContainerId` only when truthy;
`borderStyle` only when truthy and not `"solid"`; `label` only when
truthy with a non-blank trim; `settings` only when `zoomLevel` is truthy
and not `100`. -/
def optimizeDataForCompression (data : ArchitectureData) : ArchitectureData :=
  { version := data.version
    timestamp := data.timestamp
    boardItems := data.boardItems.map fun item =>
      { id := item.id, name := item.name, color := item.color
        category := item.category, x := item.x, y := item.y
        itype := item.itype
        -- `if (item.customName && item.customName !== item.name)`
        customName :=
          if optTruthy item.customName ∧ item.customName ≠ some item.name then
            item.customName
          else none
        -- `if (item.parentContainerId)`
        parentContainerId :=
          if optTruthy item.parentContainerId then item.parentContainerId
          else none }
    containers := data.containers.map fun container =>
      { id := container.id, name := container.name, color := container.color
        x := container.x, y := container.y
        width := container.width, height := container.height
        ctype := container.ctype
        -- `if (container.borderStyle && container.borderStyle !== 'solid')`
        borderStyle :=
          if optTruthy container.borderStyle ∧ container.borderStyle ≠ some "solid" then
            container.borderStyle
          else none
        parentContainerId :=
          if optTruthy container.parentContainerId then container.parentContainerId
          else none }
    connections := data.connections.map fun connection =>
      { id := connection.id, cfrom := connection.cfrom, cto := connection.cto
        -- `if (connection.label && connection.label.trim())`
        label :=
          match connection.label with
          | some l => if l ≠ "" ∧ jsTrim l ≠ "" then some l else none
          | none => none }
    -- `if (data.settings?.zoomLevel && data.settings.zoomLevel !== 100)`
    settings :=
      match data.settings with
      | some s =>
        match s.zoomLevel with
        | some z => if z ≠ 0 ∧ z ≠ 100 then some { zoomLevel := some z } else none
        | none => none
      | none => none }

/-- `restoreDataFromOptimized` (compression.ts lines 104–126): reinstates
every default elided by the optimizer, using `||`-style defaults
(`customName || undefined`, `parentContainerId || null`,
`borderStyle || 'solid'`, `label || ''`,
`settings?.zoomLevel || 100`). -/
def restoreDataFromOptimized (optimizedData : ArchitectureData) : ArchitectureData :=
  { version := optimizedData.version
    timestamp := optimizedData.timestamp
    boardItems := optimizedData.boardItems.map fun item =>
      { item with
        customName := if optTruthy item.customName then item.customName else none
        parentContainerId :=
          if optTruthy item.parentContainerId then item.parentContainerId else none }
    containers := optimizedData.containers.map fun container =>
      { container with
        borderStyle :=
          some (match container.borderStyle with
                | some b => if b ≠ "" then b else "solid"
                | none => "solid")
        parentContainerId :=
          if optTruthy container.parentContainerId then container.parentContainerId
          else none }
    connections := optimizedData.connections.map fun connection =>
      { connection with
        label :=
          some (match connection.label with
                | some l => if l ≠ "" then l else ""
                | none => "") }
    settings :=
      some { zoomLevel :=
              some (match optimizedData.settings with
                    | some s =>
                      match s.zoomLevel with
                      | some z => if z ≠ 0 then z else 100
                      | none => 100
                    | none => 100) } }

/-- Default normalization of a diagram, written from the specification's
default table: a `displayName` (`customName`) override that is empty or
equal to the base name normalizes to no override; a null
`parentContainerId` stays null (and only a truthy one is kept); an
absent, empty or `"solid"` border style normalizes to `"solid"`; an
absent, empty or whitespace-only label normalizes to the empty label; an
absent or falsy `zoomLevel` normalizes to the default `100`. -/
def normalizeData (data : ArchitectureData) : ArchitectureData :=
  { version := data.version
    timestamp := data.timestamp
    boardItems := data.boardItems.map fun item =>
      { item with
        customName :=
          if optTruthy item.customName ∧ item.customName ≠ some item.name then
            item.customName
          else none
        parentContainerId :=
          if optTruthy item.parentContainerId then item.parentContainerId else none }
    containers := data.containers.map fun container =>
      { container with
        borderStyle :=
          some (match container.borderStyle with
                | some b => if b ≠ "" ∧ b ≠ "solid" then b else "solid"
                | none => "solid")
        parentContainerId :=
          if optTruthy container.parentContainerId then container.parentContainerId
          else none }
    connections := data.connections.map fun connection =>
      { connection with
        label :=
          some (match connection.label with
                | some l => if l ≠ "" ∧ jsTrim l ≠ "" then l else ""
                | none => "") }
    settings :=
      some { zoomLevel :=
              some (match data.settings with
                    | some s =>
                      match s.zoomLevel with
                      | some z => if z ≠ 0 ∧ z ≠ 100 then z else 100
                      | none => 100
                    | none => 100) } }

/-- `compressData` (compression.ts lines 133–153).  The external
collaborators are explicit: `stringifyFn` models `JSON.stringify` and
`lzCompress` models `LZString.compressToEncodedURIComponent`.  The input
is an `Option` so that the JS `if (!data) throw` guard on a missing
diagram is expressible; errors are `Except.error`. -/
def compressData (stringifyFn : ArchitectureData → String)
    (lzCompress : String → String)
    (data : Option ArchitectureData) : Except String String :=
  match data with
  | none => Except.error "invalid data"
  | some d =>
    let optimizedData := optimizeDataForCompression d
    let jsonString := stringifyFn optimizedData
    let compressed := lzCompress jsonString
    -- `if (!compressed) throw`
    if compressed = "" then Except.error "compression failed"
    else Except.ok compressed

/-- `decompressData` (compression.ts lines 161–191).  `lzDecompress`
models `LZString.decompressFromEncodedURIComponent` (`none` for its
`null` result), `parseFn` models `JSON.parse` succeeding with data of the
expected structured shape (`none` when it throws or the parsed value does
not have that shape, which makes the subsequent restore throw in JS — in
both cases the surrounding `try`/`catch` yields `null`), and `atobFn`
models `atob` (`none` when it throws).  When the primary path produces a
truthy string whose parse fails, the `catch` returns `null` without
attempting the fallback, exactly as in the source. -/
def decompressData (parseFn : String → Option ArchitectureData)
    (lzDecompress : String → Option String) (atobFn : String → Option String)
    (compressedData : String) (fallbackToBase64 : Bool) : Option ArchitectureData :=
  -- `if (!compressedData || compressedData.trim() === '')`
  if jsTrim compressedData = "" then none
  else
    let tryFallback : Option ArchitectureData :=
      if fallbackToBase64 then
        ((atobFn compressedData).bind parseFn).map restoreDataFromOptimized
      else none
    match lzDecompress compressedData with
    | some decompressed =>
      if decompressed ≠ "" then
        (parseFn decompressed).map restoreDataFromOptimized
      else tryFallback
    | none => tryFallback

/-- Whether an `Except` result is an error (models a thrown exception). -/
def exceptIsError : Except String String → Bool
  | Except.error _ => true
  | Except.ok _ => false

/-! ### Round-trip lemmas -/

theorem restore_optimize_item (item : CItem) :
    (fun it : CItem =>
      { it with
        customName := if optTruthy it.customName then it.customName else none
        parentContainerId :=
          if optTruthy it.parentContainerId then it.parentContainerId else none })
      ({ id := item.id, name := item.name, color := item.color
         category := item.category, x := item.x, y := item.y
         itype := item.itype
         customName :=
           if optTruthy item.customName ∧ item.customName ≠ some item.name then
             item.customName
           else none
         parentContainerId :=
           if optTruthy item.parentContainerId then item.parentContainerId
           else none } : CItem) =
    { item with
      customName :=
        if optTruthy item.customName ∧ item.customName ≠ some item.name then
          item.customName
        else none
      parentContainerId :=
        if optTruthy item.parentContainerId then item.parentContainerId else none } := by
  cases item with
  | mk id name color category x y itype customName parentContainerId =>
    simp only [CItem.mk.injEq, and_true, true_and]
    constructor
    · rcases customName with _ | s
      · simp [optTruthy]
      · by_cases h : s = ""
        · simp [optTruthy, h]
        · by_cases h2 : s = name <;> simp [optTruthy, h, h2]
    · rcases parentContainerId with _ | s
      · simp [optTruthy]
      · by_cases h : s = "" <;> simp [optTruthy, h]

/-- Round-trip law, entity-by-entity:
`restoreDataFromOptimized (optimizeDataForCompression d) = normalizeData d`. -/
theorem restore_optimize_eq_normalize (d : ArchitectureData) :
    restoreDataFromOptimized (optimizeDataForCompression d) = normalizeData d := by
  cases d with
  | mk version timestamp boardItems containers connections settings =>
    simp only [restoreDataFromOptimized, optimizeDataForCompression, normalizeData,
      List.map_map, ArchitectureData.mk.injEq, true_and]
    refine ⟨?_, ?_, ?_, ?_⟩
    · apply List.map_congr_left
      intro item _
      simp only [Function.comp_apply]
      exact restore_optimize_item item
    · apply List.map_congr_left
      intro container _
      simp only [Function.comp_apply]
      cases container with
      | mk id name color x y width height ctype borderStyle parentContainerId =>
        simp only [CContainer.mk.injEq, true_and, and_true]
        constructor
        · rcases borderStyle with _ | b
          · simp [optTruthy]
          · by_cases h : b = ""
            · simp [optTruthy, h]
            · by_cases h2 : b = "solid" <;> simp [optTruthy, h, h2]
        · rcases parentContainerId with _ | s
          · simp [optTruthy]
          · by_cases h : s = "" <;> simp [optTruthy, h]
    · apply List.map_congr_left
      intro connection _
      simp only [Function.comp_apply]
      cases connection with
      | mk id cfrom cto label =>
        simp only [CConnection.mk.injEq, true_and]
        rcases label with _ | l
        · simp
        · by_cases h : l = ""
          · simp [h]
          · by_cases h2 : jsTrim l = "" <;> simp [h, h2]
    · rcases settings with _ | s
      · simp
      · rcases s with ⟨z⟩
        rcases z with _ | z
        · simp
        · by_cases h0 : z = 0
          · simp [h0]
          · by_cases h100 : z = 100 <;> simp [h0, h100]

/-- **C1.** For every diagram `d`, `restore (optimize d)` is
observationally equal to `d` field-for-field after default normalization:
the restored diagram is exactly `normalizeData d`, and the normalization
behaves as the claim enumerates — a `customName` override equal to the
base name normalizes to no override, a null `parentContainerId` stays
null, an absent `borderStyle` normalizes to `"solid"`, an empty `label`
stays empty, and an absent `zoomLevel` normalizes to `100`. -/
theorem c1_restore_optimize_roundtrip (d : ArchitectureData) :
    restoreDataFromOptimized (optimizeDataForCompression d) = normalizeData d ∧
    (∀ it : CItem, it.customName = some it.name →
      ((normalizeData { d with boardItems := [it] }).boardItems.map
        CItem.customName) = [none]) ∧
    (∀ it : CItem, it.parentContainerId = none →
      ((normalizeData { d with boardItems := [it] }).boardItems.map
        CItem.parentContainerId) = [none]) ∧
    (∀ c : CContainer, c.borderStyle = none →
      ((normalizeData { d with containers := [c] }).containers.map
        CContainer.borderStyle) = [some "solid"]) ∧
    (∀ cn : CConnection, cn.label = some "" →
      ((normalizeData { d with connections := [cn] }).connections.map
        CConnection.label) = [some ""]) ∧
    (d.settings = none →
      (normalizeData d).settings = some { zoomLevel := some 100 }) := by
  refine ⟨restore_optimize_eq_normalize d, ?_, ?_, ?_, ?_, ?_⟩
  · intro it h
    simp [normalizeData, h, optTruthy]
  · intro it h
    simp [normalizeData, h, optTruthy]
  · intro c h
    simp [normalizeData, h]
  · intro cn h
    simp [normalizeData, h]
  · intro h
    simp [normalizeData, h]

/-- Witness for C1 at a concrete diagram. -/
theorem c1_witness :
    restoreDataFromOptimized (optimizeDataForCompression
      { version := "1.0", timestamp := 5
        boardItems := [{ id := "ec2-1", name := "EC2", color := "#FF9900"
                         category := "Compute", x := 1, y := 2, itype := "service"
                         customName := some "EC2", parentContainerId := none }]
        containers := [], connections := [], settings := none }) =
    normalizeData
      { version := "1.0", timestamp := 5
        boardItems := [{ id := "ec2-1", name := "EC2", color := "#FF9900"
                         category := "Compute", x := 1, y := 2, itype := "service"
                         customName := some "EC2", parentContainerId := none }]
        containers := [], connections := [], settings := none } :=
  (c1_restore_optimize_roundtrip _).1

/-- The `zoomLevel` found in a diagram's settings, if any. -/
def zoomOf (d : ArchitectureData) : Option Int :=
  match d.settings with
  | some s => s.zoomLevel
  | none => none

/-- **C10.** `optimizeDataForCompression` drops `settings.zoomLevel` not
only when it equals the default `100` but whenever it is falsy (`0` or
absent), and `restoreDataFromOptimized` maps an absent or zero
`zoomLevel` to `100`; consequently a diagram whose `settings.zoomLevel`
is `0` round-trips to `zoomLevel = 100`, not `0`. -/
theorem c10_zoom_zero_roundtrip (d e : ArchitectureData) :
    ((zoomOf d = none ∨ zoomOf d = some 0 ∨ zoomOf d = some 100) →
      (optimizeDataForCompression d).settings = none) ∧
    ((zoomOf e = none ∨ zoomOf e = some 0) →
      (restoreDataFromOptimized e).settings = some { zoomLevel := some 100 }) ∧
    (d.settings = some { zoomLevel := some 0 } →
      (restoreDataFromOptimized (optimizeDataForCompression d)).settings =
        some { zoomLevel := some 100 }) := by
  refine ⟨?_, ?_, ?_⟩
  · intro h
    rcases hs : d.settings with _ | s
    · simp [optimizeDataForCompression, hs]
    · rcases hz : s.zoomLevel with _ | z
      · simp [optimizeDataForCompression, hs, hz]
      · rcases h with h | h | h <;> simp [zoomOf, hs, hz] at h <;>
          simp [optimizeDataForCompression, hs, hz, h]
  · intro h
    rcases hs : e.settings with _ | s
    · simp [restoreDataFromOptimized, hs]
    · rcases hz : s.zoomLevel with _ | z
      · simp [restoreDataFromOptimized, hs, hz]
      · rcases h with h | h <;> simp [zoomOf, hs, hz] at h
        simp [restoreDataFromOptimized, hs, hz, h]
  · intro h
    simp [restoreDataFromOptimized, optimizeDataForCompression, h]

/-- Witness for C10 at a concrete diagram with `zoomLevel = 0`. -/
theorem c10_witness :
    (optimizeDataForCompression
      { version := "1.0", timestamp := 0, boardItems := [], containers := []
        connections := [], settings := some { zoomLevel := some 0 } }).settings = none ∧
    (restoreDataFromOptimized (optimizeDataForCompression
      { version := "1.0", timestamp := 0, boardItems := [], containers := []
        connections := [], settings := some { zoomLevel := some 0 } })).settings =
      some { zoomLevel := some 100 } := by
  have h := c10_zoom_zero_roundtrip
    { version := "1.0", timestamp := 0, boardItems := [], containers := []
      connections := [], settings := some { zoomLevel := some 0 } }
    { version := "1.0", timestamp := 0, boardItems := [], containers := []
      connections := [], settings := some { zoomLevel := some 0 } }
  exact ⟨h.1 (Or.inr (Or.inl (by decide))), h.2.2 rfl⟩

/-- **C2.** `decompress (compress d) false` — compression to the
URL-safe text form followed by decompression without the legacy fallback
— returns the diagram `d` up to default normalization, treating the text
compressor/decompressor (and `JSON.stringify`/`JSON.parse`) as exact
inverse pairs on the values involved, with the compressor producing
non-blank output. -/
theorem c2_compress_decompress_roundtrip
    (stringifyFn : ArchitectureData → String) (lzCompress : String → String)
    (parseFn : String → Option ArchitectureData)
    (lzDecompress : String → Option String) (atobFn : String → Option String)
    (d : ArchitectureData) (c : String)
    (hc : compressData stringifyFn lzCompress (some d) = Except.ok c)
    (hjson : parseFn (stringifyFn (optimizeDataForCompression d)) =
      some (optimizeDataForCompression d))
    (hjs : stringifyFn (optimizeDataForCompression d) ≠ "")
    (hlz : lzDecompress (lzCompress (stringifyFn (optimizeDataForCompression d))) =
      some (stringifyFn (optimizeDataForCompression d)))
    (htrim : jsTrim (lzCompress (stringifyFn (optimizeDataForCompression d))) ≠ "") :
    decompressData parseFn lzDecompress atobFn c false = some (normalizeData d) := by
  have hcval : c = lzCompress (stringifyFn (optimizeDataForCompression d)) := by
    by_cases hz : lzCompress (stringifyFn (optimizeDataForCompression d)) = "" <;>
      simp [compressData, hz] at hc
    exact hc.symm
  subst hcval
  rw [decompressData]
  simp only [htrim, if_false, hlz]
  rw [if_pos hjs, hjson]
  simp [restore_optimize_eq_normalize]

/-- Witness for C2: a concrete diagram with concrete (trivial) codec
collaborators satisfying the inverse-pair hypotheses. -/
theorem c2_witness :
    decompressData
      (fun s => if s = "J" then
        some (optimizeDataForCompression
          { version := "1.0", timestamp := 0, boardItems := [], containers := []
            connections := [], settings := none })
        else none)
      (fun s => some s) (fun _ => none) "J" false =
    some (normalizeData
      { version := "1.0", timestamp := 0, boardItems := [], containers := []
        connections := [], settings := none }) :=
  c2_compress_decompress_roundtrip (fun _ => "J") (fun s => s) _ _ _
    { version := "1.0", timestamp := 0, boardItems := [], containers := []
      connections := [], settings := none }
    "J" (by rfl) (by decide) (by decide) (by decide) (by decide)

/-- **C3.** `compressData` raises exactly when the input diagram is
absent or the compressor produces an empty result; `decompressData` is a
total function (it never raises) and returns `none` exactly for blank
input, input the primary decompressor cannot invert with a failing (or
disabled) legacy fallback, or input whose decompressed text does not
parse as valid structured data on the path taken. -/
theorem c3_error_semantics
    (stringifyFn : ArchitectureData → String) (lzCompress : String → String)
    (parseFn : String → Option ArchitectureData)
    (lzDecompress : String → Option String) (atobFn : String → Option String)
    (od : Option ArchitectureData) (s : String) (fb : Bool) :
    (exceptIsError (compressData stringifyFn lzCompress od) = true ↔
      (od = none ∨ ∃ d, od = some d ∧
        lzCompress (stringifyFn (optimizeDataForCompression d)) = "")) ∧
    (decompressData parseFn lzDecompress atobFn s fb = none ↔
      (jsTrim s = "" ∨
       (∃ t, lzDecompress s = some t ∧ t ≠ "" ∧ parseFn t = none) ∨
       ((lzDecompress s = none ∨ lzDecompress s = some "") ∧
        (fb = false ∨ ((atobFn s).bind parseFn) = none)))) := by
  constructor
  · rcases od with _ | d
    · simp [compressData, exceptIsError]
    · by_cases hz : lzCompress (stringifyFn (optimizeDataForCompression d)) = "" <;>
        simp [compressData, exceptIsError, hz]
  · by_cases hs : jsTrim s = ""
    · simp [decompressData, hs]
    · rcases hlz : lzDecompress s with _ | t
      · rcases fb with _ | _
        · simp [decompressData, hs, hlz]
        · rcases hab : (atobFn s).bind parseFn with _ | v <;>
            simp [decompressData, hs, hlz, hab]
      · by_cases ht : t = ""
        · subst ht
          rcases fb with _ | _
          · simp [decompressData, hs, hlz]
          · rcases hab : (atobFn s).bind parseFn with _ | v <;>
              simp [decompressData, hs, hlz, hab]
        · rcases hp : parseFn t with _ | v <;>
            simp [decompressData, hs, hlz, ht, hp]

/-! ## Graph model of the interactive layer (`src/src/App.tsx`)

`ServiceItem`, `ContainerItem` and `Connection` from App.tsx.  As before,
`type` is rendered `itype`/`ctype` and `from`/`to` are rendered
`cfrom`/`cto`. -/

structure Container where
  id : String
  name : String
  color : String
  borderStyle : Option String
  x : Int
  y : Int
  width : Int
  height : Int
  parentContainerId : Option String
  ctype : String
deriving DecidableEq

structure Item where
  id : String
  name : String
  customName : Option String
  color : String
  category : String
  x : Int
  y : Int
  parentContainerId : Option String
  itype : String
deriving DecidableEq

structure Connection where
  id : String
  cfrom : String
  cto : String
  label : Option String
deriving DecidableEq

/-! ## Hierarchy resolver (`src/src/App.tsx`) -/

/-- `isItemInContainer` (App.tsx lines 455–462): the axis-aligned
rectangle lies entirely within the container's rectangle, all four
inequalities non-strict. -/
def isItemInContainer (itemX itemY itemWidth itemHeight : Int)
    (container : Container) : Bool :=
  decide (itemX ≥ container.x) &&
  decide (itemY ≥ container.y) &&
  decide (itemX + itemWidth ≤ container.x + container.width) &&
  decide (itemY + itemHeight ≤ container.y + container.height)

/-- The area key `container.width * container.height` used by
`findParentContainer`'s sort comparator. -/
def containerArea (c : Container) : Int := c.width * c.height

/-- Stable insertion used to model JavaScript `Array.prototype.sort` with
the comparator `(a, b) => key a - key b`: an element is inserted after
every element with a strictly smaller key and before the first element
with a greater-or-equal key, so that elements with equal keys keep their
original relative order. -/
def jsSortInsert (key : Container → Int) (x : Container) :
    List Container → List Container
  | [] => [x]
  | y :: ys => if key y < key x then y :: jsSortInsert key x ys else x :: y :: ys

/-- Model of JavaScript `Array.prototype.sort((a, b) => key a - key b)`:
a stable ascending sort by `key` (ECMAScript guarantees sort
stability). -/
def jsStableSortByKey (key : Container → Int) : List Container → List Container
  | [] => []
  | x :: xs => jsSortInsert key x (jsStableSortByKey key xs)

/-- The filter predicate of `findParentContainer`:
`container.id !== excludeContainerId && isItemInContainer(...)`
(a string id never strictly equals a `null` exclusion). -/
def findParentFilter (itemX itemY itemWidth itemHeight : Int)
    (excludeContainerId : Option String) (container : Container) : Bool :=
  (match excludeContainerId with
   | some e => container.id ≠ e
   | none => true) &&
  isItemInContainer itemX itemY itemWidth itemHeight container

/-- `findParentContainer` (App.tsx lines 465–472): filter the containers
by exclusion and geometric containment, sort ascending by area with the
stable builtin sort, and take the first element (`[0] || null`). -/
def findParentContainer (containers : List Container)
    (itemX itemY itemWidth itemHeight : Int)
    (excludeContainerId : Option String) : Option Container :=
  (jsStableSortByKey containerArea
    (containers.filter
      (findParentFilter itemX itemY itemWidth itemHeight excludeContainerId))).head?

/-- Specification-side reading of "smallest area, ties broken by original
collection order": the first element achieving the minimal key. -/
def firstMinByKey (key : Container → Int) : List Container → Option Container
  | [] => none
  | x :: xs =>
    match firstMinByKey key xs with
    | none => some x
    | some m => if key m < key x then some m else some x

theorem head_jsSortInsert (key : Container → Int) (x : Container)
    (l : List Container) :
    (jsSortInsert key x l).head? =
      match l with
      | [] => some x
      | y :: _ => if key y < key x then some y else some x := by
  cases l with
  | nil => rfl
  | cons y ys =>
    by_cases h : key y < key x <;> simp [jsSortInsert, h]

theorem head_jsStableSortByKey (key : Container → Int) (l : List Container) :
    (jsStableSortByKey key l).head? = firstMinByKey key l := by
  induction l with
  | nil => rfl
  | cons x xs ih =>
    rw [jsStableSortByKey, head_jsSortInsert]
    rcases h : jsStableSortByKey key xs with _ | ⟨y, ys⟩
    · rw [h] at ih
      simp at ih
      simp [firstMinByKey, ← ih]
    · rw [h] at ih
      simp at ih
      simp only [firstMinByKey, ← ih]

theorem firstMinByKey_eq_none_iff (key : Container → Int) (l : List Container) :
    firstMinByKey key l = none ↔ l = [] := by
  cases l with
  | nil => simp [firstMinByKey]
  | cons x xs =>
    simp only [firstMinByKey]
    rcases h : firstMinByKey key xs with _ | m
    · simp
    · by_cases hk : key m < key x <;> simp [hk]

theorem firstMinByKey_spec (key : Container → Int) (l : List Container)
    (m : Container) (hm : firstMinByKey key l = some m) :
    m ∈ l ∧ (∀ c ∈ l, key m ≤ key c) ∧
    ∃ l1 l2, l = l1 ++ m :: l2 ∧ ∀ c ∈ l1, key m < key c := by
  induction l generalizing m with
  | nil => simp [firstMinByKey] at hm
  | cons x xs ih =>
    rw [firstMinByKey] at hm
    split at hm
    case h_1 h =>
      have hxs : xs = [] := (firstMinByKey_eq_none_iff key xs).mp h
      injection hm with hm
      subst hm
      subst hxs
      exact ⟨List.mem_cons_self x [], by simp, [], [], rfl, by simp⟩
    case h_2 m' h =>
      split at hm
      case isTrue hk =>
        injection hm with hm
        subst hm
        obtain ⟨hmem, hmin, l1, l2, hdec, hstrict⟩ := ih m' h
        refine ⟨List.mem_cons_of_mem x hmem, ?_, x :: l1, l2, by simp [hdec], ?_⟩
        · intro c hc
          rcases List.mem_cons.mp hc with rfl | hc
          · exact le_of_lt hk
          · exact hmin c hc
        · intro c hc
          rcases List.mem_cons.mp hc with rfl | hc
          · exact hk
          · exact hstrict c hc
      case isFalse hk =>
        injection hm with hm
        subst hm
        obtain ⟨hmem', hmin', -⟩ := ih m' h
        refine ⟨List.mem_cons_self x xs, ?_, [], xs, rfl, by simp⟩
        intro c hc
        rcases List.mem_cons.mp hc with rfl | hc
        · exact le_refl _
        · exact le_trans (not_lt.mp hk) (hmin' c hc)

theorem filter_eq_append_cons {p : Container → Bool} {cs l1 l2 : List Container}
    {m : Container} (h : cs.filter p = l1 ++ m :: l2) :
    ∃ cs1 cs2, cs = cs1 ++ m :: cs2 ∧ cs1.filter p = l1 := by
  induction cs generalizing l1 with
  | nil => simp at h
  | cons a cs' ih =>
    by_cases hp : p a
    · rw [List.filter_cons_of_pos hp] at h
      cases l1 with
      | nil =>
        simp at h
        exact ⟨[], cs', by simp [h.1], by simp⟩
      | cons b l1' =>
        simp only [List.cons_append, List.cons.injEq] at h
        obtain ⟨rfl, h2⟩ := h
        obtain ⟨cs1', cs2', hdec, hfil⟩ := ih h2
        exact ⟨a :: cs1', cs2', by simp [hdec],
          by rw [List.filter_cons_of_pos hp, hfil]⟩
    · rw [List.filter_cons_of_neg hp] at h
      obtain ⟨cs1', cs2', hdec, hfil⟩ := ih h
      exact ⟨a :: cs1', cs2', by simp [hdec],
        by rw [List.filter_cons_of_neg hp, hfil]⟩

/-- **C5.** `findParentContainer` returns a container that passes the
containment filter with the smallest area `width*height` among all
passing containers (other than the excluded id), breaking area ties by
original collection order (it sits at a position such that every earlier
passing container has strictly larger area), and returns `null` exactly
when no container passes the filter. -/
theorem c5_findParent_smallest_area (containers : List Container)
    (x y w h : Int) (excl : Option String) :
    (findParentContainer containers x y w h excl = none ↔
      ∀ c ∈ containers, ¬ findParentFilter x y w h excl c = true) ∧
    (∀ g, findParentContainer containers x y w h excl = some g →
      findParentFilter x y w h excl g = true ∧ g ∈ containers ∧
      (∀ c ∈ containers, findParentFilter x y w h excl c = true →
        containerArea g ≤ containerArea c) ∧
      ∃ cs1 cs2, containers = cs1 ++ g :: cs2 ∧
        ∀ c ∈ cs1, findParentFilter x y w h excl c = true →
          containerArea g < containerArea c) := by
  constructor
  · rw [findParentContainer, head_jsStableSortByKey, firstMinByKey_eq_none_iff]
    constructor
    · intro hnil c hc hf
      have hcmem : c ∈ containers.filter (findParentFilter x y w h excl) :=
        List.mem_filter.mpr ⟨hc, hf⟩
      rw [hnil] at hcmem
      simp at hcmem
    · intro hall
      rcases hfil : containers.filter (findParentFilter x y w h excl) with _ | ⟨c, cs⟩
      · rfl
      · have hcmem : c ∈ containers.filter (findParentFilter x y w h excl) := by
          rw [hfil]; exact List.mem_cons_self c cs
        obtain ⟨hmc, hmf⟩ := List.mem_filter.mp hcmem
        exact absurd hmf (hall c hmc)
  · intro g hg
    rw [findParentContainer, head_jsStableSortByKey] at hg
    obtain ⟨hmem, hmin, l1, l2, hdec, hstrict⟩ := firstMinByKey_spec _ _ _ hg
    obtain ⟨hgc, hgf⟩ := List.mem_filter.mp hmem
    refine ⟨hgf, hgc, ?_, ?_⟩
    · intro c hc hf
      exact hmin c (List.mem_filter.mpr ⟨hc, hf⟩)
    · obtain ⟨cs1, cs2, hcs, hfil⟩ := filter_eq_append_cons hdec
      refine ⟨cs1, cs2, hcs, ?_⟩
      intro c hc hf
      exact hstrict c (hfil ▸ List.mem_filter.mpr ⟨hc, hf⟩)

/-- A large container geometrically containing `c5Small`. -/
def c5Big : Container :=
  { id := "big", name := "VPC", color := "#FF6B6B", borderStyle := some "solid"
    x := 0, y := 0, width := 200, height := 200, parentContainerId := none
    ctype := "container" }

/-- A small container overlapping `c5Big`. -/
def c5Small : Container :=
  { id := "small", name := "Subnet", color := "#94A3B8", borderStyle := some "dashed"
    x := 0, y := 0, width := 60, height := 60, parentContainerId := none
    ctype := "container" }

/-- Witness for C5: a rectangle fully inside two overlapping containers;
the returned container passes the filter and has the smaller area. -/
theorem c5_witness :
    findParentFilter 10 10 20 20 none c5Small = true ∧
    containerArea c5Small ≤ containerArea c5Big := by
  have h := (c5_findParent_smallest_area [c5Big, c5Small] 10 10 20 20 none).2
    c5Small (by decide)
  exact ⟨h.1, h.2.2.1 c5Big (by decide) (by decide)⟩

/-! ## Cycle prevention (`wouldCreateCircularReference`, App.tsx 492–504)

The JS helper `checkParent` recurses along the parent chain with no
bound, so it is modelled with explicit fuel: `none` means the recursion
would not have terminated within the bound, and under the acyclicity
hypotheses below the fuel `containers.length + 1` is shown sufficient. -/

/-- One upward step of the parent relation: some container in `cs` has
id `x` and `parentContainerId = some p`. -/
def StepsTo (cs : List Container) (x p : String) : Prop :=
  ∃ c ∈ cs, c.id = x ∧ c.parentContainerId = some p

/-- `UpChain cs x a`: walking the parent chain upward from `x` through
`parentContainerId` reaches `a` in one or more steps. -/
inductive UpChain (cs : List Container) : String → String → Prop where
  | single {x p : String} : StepsTo cs x p → UpChain cs x p
  | cons {x p a : String} : StepsTo cs x p → UpChain cs p a → UpChain cs x a


/-- `checkParent` (the local recursion of `wouldCreateCircularReference`):
`!currentParentId → false`; `currentParentId === childContainerId → true`;
otherwise find the container and recurse on its parent, `false` if it
does not exist. -/
def checkParent (cs : List Container) (childContainerId : String) :
    Nat → Option String → Option Bool
  | _, none => some false
  | 0, some pid => if pid = "" then some false else none
  | fuel + 1, some pid =>
    if pid = "" then some false
    else if pid = childContainerId then some true
    else
      match cs.find? (fun c => c.id == pid) with
      | some parent => checkParent cs childContainerId fuel parent.parentContainerId
      | none => some false

/-- `wouldCreateCircularReference` (App.tsx lines 492–504): true when the
two ids are equal, else walk the candidate parent's ancestor chain. -/
def wouldCreateCircularReference (cs : List Container)
    (childContainerId parentContainerId : String) : Option Bool :=
  if childContainerId = parentContainerId then some true
  else checkParent cs childContainerId (cs.length + 1) (some parentContainerId)

theorem container_id_inj {cs : List Container}
    (huniq : (cs.map Container.id).Nodup) {c1 c2 : Container}
    (h1 : c1 ∈ cs) (h2 : c2 ∈ cs) (h : c1.id = c2.id) : c1 = c2 :=
  List.inj_on_of_nodup_map huniq h1 h2 h

theorem upChain_inv {cs : List Container} {x a : String}
    (h : UpChain cs x a) : ∃ p, StepsTo cs x p ∧ (p = a ∨ UpChain cs p a) := by
  cases h with
  | single hs => exact ⟨_, hs, Or.inl rfl⟩
  | cons hs hc => exact ⟨_, hs, Or.inr hc⟩

theorem checkParent_spec (cs : List Container) (rank : String → Nat)
    (a : String)
    (huniq : (cs.map Container.id).Nodup)
    (hparent : ∀ c ∈ cs, c.parentContainerId = none ∨
      ∃ p ∈ cs, c.parentContainerId = some p.id)
    (hids : ∀ c ∈ cs, c.id ≠ "")
    (hrank : ∀ c ∈ cs, ∀ p ∈ cs, c.parentContainerId = some p.id →
      rank p.id < rank c.id) :
    ∀ fuel pid, 1 ≤ fuel →
      (∀ c ∈ cs, c.id = pid → rank pid + 2 ≤ fuel) →
      (pid = "" → pid ≠ a) →
      ∃ t, checkParent cs a fuel (some pid) = some t ∧
        (t = true ↔ (pid = a ∨ UpChain cs pid a)) := by
  intro fuel
  induction fuel with
  | zero => intro pid h1; omega
  | succ f ih =>
    intro pid _ h2 hne
    by_cases hempty : pid = ""
    · refine ⟨false, by rw [checkParent, if_pos hempty], ?_⟩
      simp only [Bool.false_eq_true, false_iff]
      rintro (rfl | hch)
      · exact hne hempty rfl
      · obtain ⟨p, ⟨c, hc, hcid, -⟩, -⟩ := upChain_inv hch
        exact hids c hc (hcid.trans hempty)
    · by_cases heq : pid = a
      · refine ⟨true, by rw [checkParent, if_neg hempty, if_pos heq], by simp [heq]⟩
      · rcases hfind : cs.find? (fun c => c.id == pid) with _ | parent
        · refine ⟨false, ?_, ?_⟩
          · rw [checkParent, if_neg hempty, if_neg heq, hfind]
          · simp only [Bool.false_eq_true, false_iff]
            rintro (rfl | hch)
            · exact heq rfl
            · obtain ⟨p, ⟨c, hc, hcid, -⟩, -⟩ := upChain_inv hch
              have := List.find?_eq_none.mp hfind c hc
              simp [hcid] at this
        · have hpmem : parent ∈ cs := List.mem_of_find?_eq_some hfind
          have hpid : parent.id = pid := by
            have := List.find?_some hfind
            simpa using this
          rcases hpp : parent.parentContainerId with _ | p'
          · refine ⟨false, ?_, ?_⟩
            · rw [checkParent, if_neg hempty, if_neg heq, hfind]
              show checkParent cs a f parent.parentContainerId = some false
              rw [hpp, checkParent]
            · simp only [Bool.false_eq_true, false_iff]
              rintro (rfl | hch)
              · exact heq rfl
              · obtain ⟨p, ⟨c, hc, hcid, hcp⟩, -⟩ := upChain_inv hch
                have hcparent : c = parent :=
                  container_id_inj huniq hc hpmem (hcid.trans hpid.symm)
                rw [hcparent, hpp] at hcp
                exact Option.noConfusion hcp
          · have hex : ∃ p ∈ cs, parent.parentContainerId = some p.id := by
              rcases hparent parent hpmem with hnone | hex
              · rw [hpp] at hnone; exact Option.noConfusion hnone
              · exact hex
            obtain ⟨q, hq, hqid⟩ := hex
            rw [hpp] at hqid
            have hp'q : p' = q.id := Option.some.inj hqid
            have hrk : rank p' < rank pid := by
              have := hrank parent hpmem q hq
                (by rw [hpp]; exact congrArg some hp'q)
              rw [hpid, ← hp'q] at this
              exact this
            have hf1 : 1 ≤ f := by
              have := h2 parent hpmem hpid
              omega
            have hf2 : ∀ c ∈ cs, c.id = p' → rank p' + 2 ≤ f := by
              intro c hc hcid
              have := h2 parent hpmem hpid
              omega
            have hne' : p' = "" → p' ≠ a := by
              intro habs
              exact ((hids q hq) (hp'q.symm.trans habs)).elim
            obtain ⟨t, hrec, hiff⟩ := ih p' hf1 hf2 hne'
            refine ⟨t, ?_, ?_⟩
            · rw [checkParent, if_neg hempty, if_neg heq, hfind]
              show checkParent cs a f parent.parentContainerId = some t
              rw [hpp]
              exact hrec
            · rw [hiff]
              have hstep : StepsTo cs pid p' := ⟨parent, hpmem, hpid, hpp⟩
              constructor
              · rintro (rfl | hch)
                · exact Or.inr (UpChain.single hstep)
                · exact Or.inr (UpChain.cons hstep hch)
              · rintro (rfl | hch)
                · exact absurd rfl heq
                · obtain ⟨p'', ⟨c, hc, hcid, hcp⟩, hrest⟩ := upChain_inv hch
                  have hcparent : c = parent :=
                    container_id_inj huniq hc hpmem (hcid.trans hpid.symm)
                  rw [hcparent, hpp] at hcp
                  have hp2 : p'' = p' := by injection hcp with hh; exact hh.symm
                  subst hp2
                  rcases hrest with rfl | hrest
                  · exact Or.inl rfl
                  · exact Or.inr hrest

/-- **C6.** On a well-formed container collection (unique non-empty ids,
parent references to existing containers, acyclic as witnessed by a rank
function), `wouldCreateCircularReference a b` terminates within its
modelled fuel and returns `true` exactly when the two ids are equal or
walking `b`'s ancestor chain through `parentContainerId` reaches `a`. -/
theorem c6_wouldCreateCycle (cs : List Container) (rank : String → Nat)
    (a b : String)
    (huniq : (cs.map Container.id).Nodup)
    (hparent : ∀ c ∈ cs, c.parentContainerId = none ∨
      ∃ p ∈ cs, c.parentContainerId = some p.id)
    (hids : ∀ c ∈ cs, c.id ≠ "")
    (hrank : ∀ c ∈ cs, ∀ p ∈ cs, c.parentContainerId = some p.id →
      rank p.id < rank c.id)
    (hbound : ∀ c ∈ cs, rank c.id < cs.length) :
    (wouldCreateCircularReference cs a b = some true ↔
      (a = b ∨ UpChain cs b a)) ∧
    wouldCreateCircularReference cs a b ≠ none := by
  by_cases hab : a = b
  · exact ⟨by simp [wouldCreateCircularReference, hab],
      by simp [wouldCreateCircularReference, hab]⟩
  · have h2 : ∀ c ∈ cs, c.id = b → rank b + 2 ≤ cs.length + 1 := by
      intro c hc hcid
      have := hbound c hc
      rw [hcid] at this
      omega
    have hne : b = "" → b ≠ a := fun _ h => hab h.symm
    obtain ⟨t, heq, hiff⟩ := checkParent_spec cs rank a huniq hparent hids hrank
      (cs.length + 1) b (by omega) h2 hne
    rw [wouldCreateCircularReference, if_neg hab, heq]
    constructor
    · constructor
      · intro h
        have ht : t = true := Option.some.inj h
        exact (hiff.mp ht).elim (fun h' => Or.inl h'.symm) Or.inr
      · intro h
        have ht : t = true := hiff.mpr (h.elim (fun h' => Or.inl h'.symm) Or.inr)
        rw [ht]
    · simp

/-- Chain container A (root). -/
def c6ContainerA : Container :=
  { id := "A", name := "Outer", color := "#FF6B6B", borderStyle := some "solid"
    x := 0, y := 0, width := 500, height := 500, parentContainerId := none
    ctype := "container" }

/-- Chain container B, parented under A. -/
def c6ContainerB : Container :=
  { id := "B", name := "Middle", color := "#94A3B8", borderStyle := some "dashed"
    x := 20, y := 20, width := 300, height := 300, parentContainerId := some "A"
    ctype := "container" }

/-- Chain container C, parented under B. -/
def c6ContainerC : Container :=
  { id := "C", name := "Inner", color := "#9CA3AF", borderStyle := some "dotted"
    x := 40, y := 40, width := 150, height := 150, parentContainerId := some "B"
    ctype := "container" }

/-- The chain A → B → C of nested containers. -/
def c6Chain : List Container := [c6ContainerA, c6ContainerB, c6ContainerC]

/-- Witness for C6: on the chain A → B → C, `wouldCreateCircularReference
A C` is true. -/
theorem c6_witness : wouldCreateCircularReference c6Chain "A" "C" = some true := by
  have h := c6_wouldCreateCycle c6Chain
    (fun s => if s = "A" then 0 else if s = "B" then 1 else 2) "A" "C"
    (by decide) (by decide) (by decide) (by decide) (by decide)
  exact h.1.mpr (Or.inr (UpChain.cons ⟨c6ContainerC, by decide, rfl, rfl⟩
    (UpChain.single ⟨c6ContainerB, by decide, rfl, rfl⟩)))

/-! ## DSL parser (`parseEraserFormat`, App.tsx lines 742–883)

The lexical layer (the `split`/`trim`/regex matching of each raw text
line) is abstracted into `PLine`: a constructor records which branch of
the parser's `if`/`else if` chain a line took together with the capture
groups of the successful regex match; a line that matched no branch, or
whose branch regex failed to match, is `PLine.other` and has no effect,
exactly as in the source.  The large icon/label classification catalog
(`getServiceFromIcon`) is static lookup data passed in via `PEnv`, and
the impure id ingredients (`Date.now()`, `Math.random()`) are `PEnv`
parameters as well. -/

/-- The service record returned by `getServiceFromIcon`. -/
structure ServiceInfo where
  id : String
  name : String
  color : String
  category : String
deriving DecidableEq

/-- External inputs of one parse run: the icon/label classification
catalog, the `Date.now()` timestamp embedded in generated ids, and the
`Date.now()`/`Math.random()` connection-id source (indexed by the number
of connections created so far). -/
structure PEnv where
  getServiceFromIcon : String → String → ServiceInfo
  now : Nat
  freshConnId : Nat → String

/-- One classified input line of the nested-group DSL. -/
inductive PLine where
  | comment : PLine
  | groupOpen (gid label icon : String) : PLine
  | close : PLine
  | item (iid label icon : String) : PLine
  | conn (fromId toId : String) (label : Option String) : PLine
  | other : PLine
deriving DecidableEq

/-- Character-list version of JavaScript `String.prototype.includes`:
does `sub` start `hay`? -/
def charsStartWith : List Char → List Char → Bool
  | [], _ => true
  | _ :: _, [] => false
  | a :: as, b :: bs => a == b && charsStartWith as bs

/-- Does `hay` contain `sub` as a contiguous run? -/
def charsHasSub (sub : List Char) : List Char → Bool
  | [] => charsStartWith sub []
  | c :: t => if charsStartWith sub (c :: t) then true else charsHasSub sub t

/-- Model of JavaScript `String.prototype.includes`. -/
def jsIncludes (s sub : String) : Bool := charsHasSub sub.data s.data

/-- The container-kind classification of a group-opening line
(App.tsx lines 769–805): case-insensitive substring tests on the group's
label, first match wins; returns `(containerType, borderStyle, color)`
with defaults `("container", "solid", "#FF6B6B")`. -/
def classifyGroup (groupName : String) : String × String × String :=
  if jsIncludes groupName.toLower "vpc" then ("vpc", "solid", "#FF6B6B")
  else if jsIncludes groupName.toLower "subnet" then ("subnet", "dashed", "#94A3B8")
  else if jsIncludes groupName.toLower "aws" || jsIncludes groupName.toLower "cloud" then
    ("aws-cloud", "solid", "#FF9900")
  else if jsIncludes groupName.toLower "github" then ("github", "solid", "#374151")
  else if jsIncludes groupName.toLower "on-premises" ||
      jsIncludes groupName.toLower "on premises" then
    ("on-premises", "solid", "#6B7280")
  else if jsIncludes groupName.toLower "data center" ||
      jsIncludes groupName.toLower "datacenter" then
    ("data-center", "solid", "#374151")
  else if jsIncludes groupName.toLower "corporate" ||
      jsIncludes groupName.toLower "corp" then
    ("corporate-network", "dashed", "#4B5563")
  else if jsIncludes groupName.toLower "rack" then ("server-rack", "dotted", "#6B7280")
  else if jsIncludes groupName.toLower "network zone" ||
      jsIncludes groupName.toLower "zone" then
    ("network-zone", "dashed", "#9CA3AF")
  else ("container", "solid", "#FF6B6B")

/-- The parser's running state: the three output collections, the stack
of currently open groups (most recently opened first; the source keeps
it last), the two id counters, and the two identifier tables (later
bindings shadow earlier ones, modelling `Map.set`). -/
structure PState where
  items : List Item
  containers : List Container
  connections : List Connection
  groupStack : List Container
  itemCounter : Nat
  containerCounter : Nat
  itemIdMap : List (String × Item)
  containerIdMap : List (String × Container)
deriving DecidableEq

/-- `Map.get`: the most recent binding of a key. -/
def mapGet {α : Type} (m : List (String × α)) (k : String) : Option α :=
  (m.find? (fun kv => kv.1 == k)).map (fun kv => kv.2)

/-- The empty parse state. -/
def parseInit : PState :=
  { items := [], containers := [], connections := [], groupStack := []
    itemCounter := 0, containerCounter := 0, itemIdMap := [], containerIdMap := [] }

/-- One step of `parseEraserFormat`'s line loop (App.tsx lines 756–880).

* a comment/`direction` line is skipped;
* a group-opening line classifies the label, creates a container whose
  position/size derive from the nesting level, parents it to the top of
  the stack (`parentContainer?.id || null`), pushes it, and registers the
  in-text identifier;
* a `}` line pops the stack (no-op when empty — `tail [] = []`);
* an item line classifies label/icon via the catalog, creates an item
  whose id embeds the old `itemCounter` (`itemCounter++` inside the id
  template) and whose position uses the incremented counter, parents it
  to the top of the stack and registers the in-text identifier;
* a connection line resolves both identifiers through the item table only
  and appends an edge when both resolve, otherwise does nothing. -/
def parseStep (env : PEnv) (s : PState) : PLine → PState
  | PLine.comment => s
  | PLine.other => s
  | PLine.groupOpen gid label _ =>
    let cls := classifyGroup label
    let parentContainer := s.groupStack.head?
    let newContainer : Container :=
      { id := "container-" ++ toString s.containerCounter ++ "-" ++ toString env.now
        name := label
        color := cls.2.2
        borderStyle := some cls.2.1
        x := 100 + 60 * (s.groupStack.length : Int)
        y := 100 + 60 * (s.groupStack.length : Int)
        width := max (400 - 40 * (s.groupStack.length : Int)) 240
        height := max (320 - 40 * (s.groupStack.length : Int)) 180
        parentContainerId :=
          match parentContainer with
          | some p => if p.id ≠ "" then some p.id else none
          | none => none
        ctype := "container" }
    { s with containers := s.containers ++ [newContainer]
             containerCounter := s.containerCounter + 1
             groupStack := newContainer :: s.groupStack
             containerIdMap := (gid, newContainer) :: s.containerIdMap }
  | PLine.close => { s with groupStack := s.groupStack.tail }
  | PLine.item iid label icon =>
    let serviceInfo := env.getServiceFromIcon (jsTrim icon) label
    let uniqueId :=
      serviceInfo.id ++ "-" ++ toString s.itemCounter ++ "-" ++ toString env.now
    let cnt := s.itemCounter + 1
    let currentGroup := s.groupStack.head?
    let item : Item :=
      { id := uniqueId
        name := serviceInfo.name
        customName := if label ≠ serviceInfo.name then some label else none
        color := serviceInfo.color
        category := serviceInfo.category
        x := 180 + ((cnt % 4 : Nat) : Int) * 100 + (s.groupStack.length : Int) * 30
        y := 180 + ((cnt / 4 : Nat) : Int) * 100 + (s.groupStack.length : Int) * 30
        parentContainerId :=
          match currentGroup with
          | some g => if g.id ≠ "" then some g.id else none
          | none => none
        itype := "service" }
    { s with items := s.items ++ [item]
             itemCounter := cnt
             itemIdMap := (iid, item) :: s.itemIdMap }
  | PLine.conn fromId toId label =>
    match mapGet s.itemIdMap fromId, mapGet s.itemIdMap toId with
    | some fromItem, some toItem =>
      { s with connections := s.connections ++
          [{ id := env.freshConnId s.connections.length
             cfrom := fromItem.id
             cto := toItem.id
             label := some (label.getD "") }] }
    | _, _ => s

/-- The collections returned by `parseEraserFormat`. -/
structure ParseResult where
  items : List Item
  containers : List Container
  connections : List Connection
deriving DecidableEq

/-- `parseEraserFormat` (App.tsx lines 742–883): fold the line loop over
the classified lines and return the three collections. -/
def parseEraserFormat (env : PEnv) (lines : List PLine) : ParseResult :=
  let final := lines.foldl (parseStep env) parseInit
  { items := final.items, containers := final.containers
    connections := final.connections }

/-- Containers in creation order: each container's parent, when set, is
the id of a container created strictly earlier in the same parse. -/
inductive OrderedContainers : List Container → Prop where
  | nil : OrderedContainers []
  | snoc {l : List Container} {c : Container} : OrderedContainers l →
      (c.parentContainerId = none ∨ ∃ p ∈ l, c.parentContainerId = some p.id) →
      OrderedContainers (l ++ [c])

theorem orderedContainers_mem {l : List Container} (h : OrderedContainers l) :
    ∀ c ∈ l, c.parentContainerId = none ∨
      ∃ g ∈ l, c.parentContainerId = some g.id := by
  induction h with
  | nil => intro c hc; simp at hc
  | snoc hl hc ih =>
    intro c hcmem
    rcases List.mem_append.mp hcmem with h1 | h2
    · rcases ih c h1 with hnone | ⟨g, hg, hgid⟩
      · exact Or.inl hnone
      · exact Or.inr ⟨g, List.mem_append_left _ hg, hgid⟩
    · rw [List.mem_singleton.mp h2]
      rcases hc with hnone | ⟨g, hg, hgid⟩
      · exact Or.inl hnone
      · exact Or.inr ⟨g, List.mem_append_left _ hg, hgid⟩

/-- The parse-state invariant: identifier-table entries live in the item
collection, stacked groups live in the container collection, connection
endpoints are ids of collected items, item parents are ids of collected
containers, and the containers are in creation order. -/
def PInv (s : PState) : Prop :=
  (∀ kv ∈ s.itemIdMap, kv.2 ∈ s.items) ∧
  (∀ g ∈ s.groupStack, g ∈ s.containers) ∧
  (∀ cn ∈ s.connections,
    (∃ it ∈ s.items, cn.cfrom = it.id) ∧ (∃ it ∈ s.items, cn.cto = it.id)) ∧
  (∀ it ∈ s.items, it.parentContainerId = none ∨
    ∃ g ∈ s.containers, it.parentContainerId = some g.id) ∧
  OrderedContainers s.containers

theorem pinv_init : PInv parseInit := by
  refine ⟨?_, ?_, ?_, ?_, ?_⟩ <;>
    first
      | exact OrderedContainers.nil
      | (intro a ha; simp [parseInit] at ha)

theorem mapGet_mem {α : Type} {m : List (String × α)} {k : String} {v : α}
    (h : mapGet m k = some v) : ∃ kv ∈ m, kv.2 = v := by
  rw [mapGet] at h
  rcases hfind : m.find? (fun kv => kv.1 == k) with _ | kv
  · rw [hfind] at h; exact Option.noConfusion h
  · rw [hfind] at h
    exact ⟨kv, List.mem_of_find?_eq_some hfind, Option.some.inj h⟩

theorem pinv_step (env : PEnv) (s : PState) (ln : PLine) (h : PInv s) :
    PInv (parseStep env s ln) := by
  obtain ⟨hmap, hstack, hconn, hitem, hord⟩ := h
  cases ln with
  | comment => exact ⟨hmap, hstack, hconn, hitem, hord⟩
  | other => exact ⟨hmap, hstack, hconn, hitem, hord⟩
  | close =>
    refine ⟨hmap, ?_, hconn, hitem, hord⟩
    intro g hg
    exact hstack g (List.mem_of_mem_tail hg)
  | groupOpen gid label icon =>
    refine ⟨hmap, ?_, hconn, ?_, ?_⟩
    · intro g hg
      rcases List.mem_cons.mp hg with rfl | hg
      · exact List.mem_append_right _ (List.mem_singleton_self _)
      · exact List.mem_append_left _ (hstack g hg)
    · intro it hit
      rcases hitem it hit with hnone | ⟨g, hg, hgid⟩
      · exact Or.inl hnone
      · exact Or.inr ⟨g, List.mem_append_left _ hg, hgid⟩
    · refine OrderedContainers.snoc hord ?_
      rcases hhead : s.groupStack.head? with _ | p
      · left
        simp only [parseStep, hhead]
      · by_cases hpid : p.id = ""
        · left
          simp only [parseStep, hhead, hpid]
          simp
        · right
          refine ⟨p, hstack p (List.mem_of_mem_head? (by rw [hhead]; rfl)), ?_⟩
          simp only [parseStep, hhead]
          simp [hpid]
  | item iid label icon =>
    refine ⟨?_, hstack, ?_, ?_, hord⟩
    · intro kv hkv
      rcases List.mem_cons.mp hkv with rfl | hkv
      · exact List.mem_append_right _ (List.mem_singleton_self _)
      · exact List.mem_append_left _ (hmap kv hkv)
    · intro cn hcn
      obtain ⟨⟨it1, h1, h1e⟩, ⟨it2, h2, h2e⟩⟩ := hconn cn hcn
      exact ⟨⟨it1, List.mem_append_left _ h1, h1e⟩,
             ⟨it2, List.mem_append_left _ h2, h2e⟩⟩
    · intro it hit
      rcases List.mem_append.mp hit with h1 | h2
      · exact hitem it h1
      · rw [List.mem_singleton.mp h2]
        rcases hhead : s.groupStack.head? with _ | p
        · left
          simp only [parseStep, hhead]
        · by_cases hpid : p.id = ""
          · left
            simp only [parseStep, hhead, hpid]
            simp
          · right
            refine ⟨p, hstack p (List.mem_of_mem_head? (by rw [hhead]; rfl)), ?_⟩
            simp only [parseStep, hhead]
            simp [hpid]
  | conn fromId toId label =>
    rcases hf : mapGet s.itemIdMap fromId with _ | fi
    · have hs : parseStep env s (PLine.conn fromId toId label) = s := by
        rw [parseStep, hf]
      rw [hs]
      exact ⟨hmap, hstack, hconn, hitem, hord⟩
    · rcases ht : mapGet s.itemIdMap toId with _ | ti
      · have hs : parseStep env s (PLine.conn fromId toId label) = s := by
          rw [parseStep, hf, ht]
        rw [hs]
        exact ⟨hmap, hstack, hconn, hitem, hord⟩
      · have hs : parseStep env s (PLine.conn fromId toId label) =
            { s with connections := s.connections ++
                [{ id := env.freshConnId s.connections.length, cfrom := fi.id
                   cto := ti.id, label := some (label.getD "") }] } := by
          rw [parseStep, hf, ht]
        rw [hs]
        refine ⟨hmap, hstack, ?_, hitem, hord⟩
        intro cn hcn
        rcases List.mem_append.mp hcn with h1 | h2
        · exact hconn cn h1
        · rw [List.mem_singleton.mp h2]
          have hfi : fi ∈ s.items := by
            obtain ⟨kv, hkvmem, hkv2⟩ := mapGet_mem hf
            rw [← hkv2]
            exact hmap kv hkvmem
          have hti : ti ∈ s.items := by
            obtain ⟨kv, hkvmem, hkv2⟩ := mapGet_mem ht
            rw [← hkv2]
            exact hmap kv hkvmem
          exact ⟨⟨fi, hfi, rfl⟩, ⟨ti, hti, rfl⟩⟩

theorem pinv_fold (env : PEnv) (lines : List PLine) :
    ∀ s, PInv s → PInv (lines.foldl (parseStep env) s) := by
  induction lines with
  | nil => intro s h; exact h
  | cons ln rest ih => intro s h; exact ih _ (pinv_step env s ln h)

/-- **C9.** For every input, the parser's output is internally
consistent: every item's parent id is null or the id of a returned
container, every container's parent id is null or the id of a returned
container, every connection's endpoints are ids of returned items, and
the container parent relation is acyclic because each container's
parent, when set, was created strictly earlier in the same parse. -/
theorem c9_parser_output_consistent (env : PEnv) (lines : List PLine) :
    (∀ it ∈ (parseEraserFormat env lines).items,
      it.parentContainerId = none ∨
      ∃ g ∈ (parseEraserFormat env lines).containers,
        it.parentContainerId = some g.id) ∧
    (∀ c ∈ (parseEraserFormat env lines).containers,
      c.parentContainerId = none ∨
      ∃ g ∈ (parseEraserFormat env lines).containers,
        c.parentContainerId = some g.id) ∧
    (∀ cn ∈ (parseEraserFormat env lines).connections,
      (∃ it ∈ (parseEraserFormat env lines).items, cn.cfrom = it.id) ∧
      (∃ it ∈ (parseEraserFormat env lines).items, cn.cto = it.id)) ∧
    OrderedContainers (parseEraserFormat env lines).containers := by
  obtain ⟨hmap, hstack, hconn, hitem, hord⟩ :=
    pinv_fold env lines parseInit pinv_init
  exact ⟨hitem, orderedContainers_mem hord, hconn, hord⟩

/-- **C7.** A connection line resolves both identifiers through the item
identifier table only: if either identifier is unbound there (undefined,
or bound only in the group table), the step leaves the parse state
completely unchanged; if both are bound, the step appends exactly one
edge whose endpoints are the resolved items' generated ids and changes
nothing else; consequently every edge in any parser output has both
endpoints equal to ids of returned items — groups are never edge
endpoints. -/
theorem c7_edges_resolved (env : PEnv) (s : PState) (f t : String)
    (lbl : Option String) (lines : List PLine) :
    ((mapGet s.itemIdMap f = none ∨ mapGet s.itemIdMap t = none) →
      parseStep env s (PLine.conn f t lbl) = s) ∧
    (∀ fi ti, mapGet s.itemIdMap f = some fi → mapGet s.itemIdMap t = some ti →
      parseStep env s (PLine.conn f t lbl) =
        { s with connections := s.connections ++
            [{ id := env.freshConnId s.connections.length, cfrom := fi.id
               cto := ti.id, label := some (lbl.getD "") }] }) ∧
    (∀ cn ∈ (parseEraserFormat env lines).connections,
      (∃ it ∈ (parseEraserFormat env lines).items, cn.cfrom = it.id) ∧
      (∃ it ∈ (parseEraserFormat env lines).items, cn.cto = it.id)) := by
  refine ⟨?_, ?_, ?_⟩
  · rintro (hf | ht)
    · rw [parseStep, hf]
    · rcases hf : mapGet s.itemIdMap f with _ | fi
      · rw [parseStep, hf]
      · rw [parseStep, hf, ht]
  · intro fi ti hf ht
    rw [parseStep, hf, ht]
  · obtain ⟨-, -, hconn, -, -⟩ := pinv_fold env lines parseInit pinv_init
    exact hconn

/-- A concrete parse environment for the witnesses: a one-entry
classification catalog, `Date.now() = 0`, sequential connection ids. -/
def pEnvDemo : PEnv :=
  { getServiceFromIcon := fun _ _ =>
      { id := "ec2", name := "EC2", color := "#FF9900", category := "Compute" }
    now := 0
    freshConnId := fun n => "conn-" ++ toString n }

/-- Witness for C7: a connection line naming an identifier bound only in
the group table (after `G [...] {`) leaves the state unchanged, and on a
two-item state the edge is appended with the items' generated ids. -/
theorem c7_witness :
    parseStep pEnvDemo
      (parseStep pEnvDemo parseInit (PLine.groupOpen "G" "My VPC" "aws-vpc"))
      (PLine.conn "G" "G" none) =
    parseStep pEnvDemo parseInit (PLine.groupOpen "G" "My VPC" "aws-vpc") :=
  (c7_edges_resolved pEnvDemo
    (parseStep pEnvDemo parseInit (PLine.groupOpen "G" "My VPC" "aws-vpc"))
    "G" "G" none []).1 (Or.inl (by rfl))

/-- Counterexample to **C8** as stated: the very first parsed item sits
at column 1 of the grid, not column 0.  `itemCounter++` is evaluated
inside the id template string before the position is computed, so the
position formula sees the incremented counter: for the first item
`x = 180 + (1 % 4) * 100 + 0 * 30 = 280`, whereas a grid starting at
column 0 for the first item would give `x = 180`. -/
theorem c8_counterexample :
    ((parseEraserFormat pEnvDemo [PLine.item "A" "Web" "aws-ec2"]).items.map
      Item.x) = [280] ∧
    (280 : Int) ≠ 180 + ((0 : Int) % 4) * 100 + 0 * 30 := by
  constructor
  · rfl
  · decide

/-- The position invariant maintained by the parse loop: the item counter
equals the number of items created, and the item stored at index `j` was
positioned from counter value `j + 1` (column `(j+1) % 4`, row
`(j+1) / 4`, step 100, origin 180) plus 30 per nesting level. -/
def PosInv (s : PState) : Prop :=
  s.itemCounter = s.items.length ∧
  ∀ j it, s.items[j]? = some it →
    ∃ d : Nat,
      it.x = 180 + (((j + 1) % 4 : Nat) : Int) * 100 + (d : Int) * 30 ∧
      it.y = 180 + (((j + 1) / 4 : Nat) : Int) * 100 + (d : Int) * 30

theorem posInv_init : PosInv parseInit := by
  constructor
  · rfl
  · intro j it hj
    simp [parseInit] at hj

theorem posInv_step (env : PEnv) (s : PState) (ln : PLine) (h : PosInv s) :
    PosInv (parseStep env s ln) := by
  obtain ⟨hcnt, hpos⟩ := h
  cases ln with
  | comment => exact ⟨hcnt, hpos⟩
  | other => exact ⟨hcnt, hpos⟩
  | close => exact ⟨hcnt, hpos⟩
  | groupOpen gid label icon => exact ⟨hcnt, hpos⟩
  | item iid label icon =>
    constructor
    · simp [parseStep, hcnt]
    · intro j it hj
      by_cases hlt : j < s.items.length
      · rw [show (parseStep env s (PLine.item iid label icon)).items =
            s.items ++ [_] from rfl, List.getElem?_append_left hlt] at hj
        exact hpos j it hj
      · rw [show (parseStep env s (PLine.item iid label icon)).items =
            s.items ++ [_] from rfl] at hj
        have hlen : j < s.items.length + 1 := by
          have := (List.getElem?_eq_some.mp hj).1
          simpa using this
        have hje : j = s.items.length := by omega
        subst hje
        rw [List.getElem?_append_right (le_refl _)] at hj
        simp only [Nat.sub_self, List.getElem?_cons_zero] at hj
        refine ⟨s.groupStack.length, ?_, ?_⟩
        · rw [← Option.some.inj hj]
          show (180 + ((s.itemCounter + 1) % 4 : Nat) * 100 +
            (s.groupStack.length : Int) * 30 : Int) = _
          rw [hcnt]
        · rw [← Option.some.inj hj]
          show (180 + ((s.itemCounter + 1) / 4 : Nat) * 100 +
            (s.groupStack.length : Int) * 30 : Int) = _
          rw [hcnt]
  | conn fromId toId label =>
    rcases hf : mapGet s.itemIdMap fromId with _ | fi
    · have hs : parseStep env s (PLine.conn fromId toId label) = s := by
        rw [parseStep, hf]
      rw [hs]; exact ⟨hcnt, hpos⟩
    · rcases ht : mapGet s.itemIdMap toId with _ | ti
      · have hs : parseStep env s (PLine.conn fromId toId label) = s := by
          rw [parseStep, hf, ht]
        rw [hs]; exact ⟨hcnt, hpos⟩
      · have hs : (parseStep env s (PLine.conn fromId toId label)).items = s.items ∧
            (parseStep env s (PLine.conn fromId toId label)).itemCounter =
              s.itemCounter := by
          rw [parseStep, hf, ht]
          exact ⟨rfl, rfl⟩
        exact ⟨hs.2 ▸ hs.1 ▸ hcnt, hs.1 ▸ hpos⟩

theorem posInv_fold (env : PEnv) (lines : List PLine) :
    ∀ s, PosInv s → PosInv (lines.foldl (parseStep env) s) := by
  induction lines with
  | nil => intro s h; exact h
  | cons ln rest ih => intro s h; exact ih _ (posInv_step env s ln h)

/-- **C8 (amended).** The position of each parsed item is determined by
the running item counter and the nesting depth, but the counter is
post-incremented while generating the item's id, before the position is
computed: the item stored at index `j` (0-based) uses counter value
`j + 1`, so its column is `(j+1) % 4` and its row is `(j+1) / 4` (step
100, origin 180, offset 30 per nesting level) — the first item is at
column 1, and items fan out in a 4-wide grid from there. -/
theorem c8_amended_grid_positions (env : PEnv) (lines : List PLine) :
    ∀ j it, (parseEraserFormat env lines).items[j]? = some it →
      ∃ d : Nat,
        it.x = 180 + (((j + 1) % 4 : Nat) : Int) * 100 + (d : Int) * 30 ∧
        it.y = 180 + (((j + 1) / 4 : Nat) : Int) * 100 + (d : Int) * 30 :=
  (posInv_fold env lines parseInit posInv_init).2

/-- The item produced by parsing the single line `A [label: "Web", icon:
aws-ec2]` in the demo environment. -/
def c8FirstItem : Item :=
  { id := "ec2-0-0", name := "EC2", customName := some "Web", color := "#FF9900"
    category := "Compute", x := 280, y := 180, parentContainerId := none
    itype := "service" }

/-- Witness for the amended C8 at a concrete one-item parse. -/
theorem c8_witness :
    (parseEraserFormat pEnvDemo [PLine.item "A" "Web" "aws-ec2"]).items[0]? =
      some c8FirstItem ∧
    ∃ d : Nat,
      c8FirstItem.x = 180 + (((0 + 1) % 4 : Nat) : Int) * 100 + (d : Int) * 30 ∧
      c8FirstItem.y = 180 + (((0 + 1) / 4 : Nat) : Int) * 100 + (d : Int) * 30 :=
  ⟨by rfl, c8_amended_grid_positions pEnvDemo [PLine.item "A" "Web" "aws-ec2"] 0
    c8FirstItem (by rfl)⟩

/-! ## DSL / flowchart emitters (`exportMermaidToClipboard`, App.tsx 1589–1758)

The two emitters build one output string line by line.  Each emitted line
is modelled as an `ELine` token recording the line's kind, the id of the
entity it was emitted for, and the indentation depth; the rendered text
of a line is a function of its token (a `groupClose` line renders as
`}`/`end` — the id payload records which recursive call emitted it).
Both `exportContainerRecursive` (eraser form) and
`exportFlowchartContainerRecursive` (flowchart form) recurse through
child containers with no bound in the source; the model adds explicit
fuel, and the theorems show `containers.length` fuel suffices on
well-formed input. -/

inductive ELine where
  | header : ELine
  | blank : ELine
  | groupOpen (gid : String) (depth : Nat) : ELine
  | node (itemId : String) (depth : Nat) : ELine
  | groupClose (gid : String) (depth : Nat) : ELine
  | connHeader : ELine
  | conn (fromId toId : String) (label : Option String) : ELine
  | styleHeader : ELine
  | styleLine (itemId : String) : ELine
deriving DecidableEq

/-- `exportContainerRecursive` (App.tsx lines 1610–1656): look the
container up by id, emit its opening line, the lines of the items whose
`parentContainerId` strictly equals its id, the blocks of its child
containers at depth+1, and its closing line. -/
def exportContainerRecursive (cs : List Container) (items : List Item) :
    Nat → String → Nat → List ELine
  | 0, _, _ => []
  | fuel + 1, containerId, depth =>
    match cs.find? (fun c => c.id == containerId) with
    | none => []
    | some container =>
      [ELine.groupOpen container.id depth]
        ++ (items.filter (fun it => it.parentContainerId == some container.id)).map
            (fun it => ELine.node it.id (depth + 1))
        ++ ((cs.filter (fun c => c.parentContainerId == some container.id)).map
            (fun cc => exportContainerRecursive cs items fuel cc.id (depth + 1))).join
        ++ [ELine.groupClose container.id depth]

/-- `exportFlowchartContainerRecursive` (App.tsx lines 1685–1720):
structurally identical, but each subgraph block starts with the empty
line produced by the leading `\n` of its `subgraph` fragment, and closes
with `end`. -/
def exportFlowchartContainerRecursive (cs : List Container) (items : List Item) :
    Nat → String → Nat → List ELine
  | 0, _, _ => []
  | fuel + 1, containerId, depth =>
    match cs.find? (fun c => c.id == containerId) with
    | none => []
    | some container =>
      [ELine.blank, ELine.groupOpen container.id depth]
        ++ (items.filter (fun it => it.parentContainerId == some container.id)).map
            (fun it => ELine.node it.id (depth + 1))
        ++ ((cs.filter (fun c => c.parentContainerId == some container.id)).map
            (fun cc => exportFlowchartContainerRecursive cs items fuel cc.id (depth + 1))).join
        ++ [ELine.groupClose container.id depth]

/-- The eraser-form connection token of a connection (labelled when the
label is truthy with non-blank trim, as in the source). -/
def connTok (cn : Connection) : ELine :=
  ELine.conn cn.cfrom cn.cto
    (match cn.label with
     | some l => if l ≠ "" ∧ jsTrim l ≠ "" then some l else none
     | none => none)

/-- The eraser-form emitter (App.tsx lines 1592–1671): the
`direction right` header and its blank line, the parentless items, a
blank line when there was at least one, each root container's block
followed by a blank line, and the connection section when non-empty. -/
def exportEraserLines (cs : List Container) (items : List Item)
    (conns : List Connection) : List ELine :=
  let itemsNotInContainer := items.filter (fun it => !(optTruthy it.parentContainerId))
  [ELine.header, ELine.blank]
    ++ itemsNotInContainer.map (fun it => ELine.node it.id 0)
    ++ (if itemsNotInContainer.length > 0 then [ELine.blank] else [])
    ++ ((cs.filter (fun c => !(optTruthy c.parentContainerId))).map
        (fun r => exportContainerRecursive cs items cs.length r.id 0 ++ [ELine.blank])).join
    ++ (if conns.length > 0 then ELine.connHeader :: conns.map connTok else [])

/-- The flowchart emitter (App.tsx lines 1672–1740): the `flowchart TD`
header, the parentless items, each root container's subgraph block, the
connection section when non-empty, and the per-item style section. -/
def exportFlowchartLines (cs : List Container) (items : List Item)
    (conns : List Connection) : List ELine :=
  [ELine.header]
    ++ (items.filter (fun it => !(optTruthy it.parentContainerId))).map
        (fun it => ELine.node it.id 1)
    ++ ((cs.filter (fun c => !(optTruthy c.parentContainerId))).map
        (fun r => exportFlowchartContainerRecursive cs items cs.length r.id 1)).join
    ++ (if conns.length > 0 then
          [ELine.blank, ELine.connHeader] ++ conns.map connTok
        else [])
    ++ [ELine.blank, ELine.styleHeader]
    ++ items.map (fun it => ELine.styleLine it.id)

/-- Generic form of the two recursive block emitters: `pre` is the fixed
per-block preamble (`[]` for eraser, `[ELine.blank]` for flowchart). -/
def genBlock (pre : List ELine) (cs : List Container) (items : List Item) :
    Nat → String → Nat → List ELine
  | 0, _, _ => []
  | fuel + 1, containerId, depth =>
    match cs.find? (fun c => c.id == containerId) with
    | none => []
    | some container =>
      pre ++ [ELine.groupOpen container.id depth]
        ++ (items.filter (fun it => it.parentContainerId == some container.id)).map
            (fun it => ELine.node it.id (depth + 1))
        ++ ((cs.filter (fun c => c.parentContainerId == some container.id)).map
            (fun cc => genBlock pre cs items fuel cc.id (depth + 1))).join
        ++ [ELine.groupClose container.id depth]

theorem exportContainerRecursive_eq_genBlock (cs : List Container)
    (items : List Item) :
    ∀ fuel cid depth, exportContainerRecursive cs items fuel cid depth =
      genBlock [] cs items fuel cid depth := by
  intro fuel
  induction fuel with
  | zero => intro cid depth; rfl
  | succ f ih =>
    intro cid depth
    rw [exportContainerRecursive, genBlock]
    rcases h : cs.find? (fun c => c.id == cid) with _ | container
    · simp only [h]
    · simp only [h, List.nil_append]
      have hmap : (cs.filter (fun c => c.parentContainerId == some container.id)).map
            (fun cc => exportContainerRecursive cs items f cc.id (depth + 1)) =
          (cs.filter (fun c => c.parentContainerId == some container.id)).map
            (fun cc => genBlock [] cs items f cc.id (depth + 1)) :=
        List.map_congr_left (fun cc _ => ih cc.id (depth + 1))
      rw [hmap]

theorem exportFlowchartContainerRecursive_eq_genBlock (cs : List Container)
    (items : List Item) :
    ∀ fuel cid depth, exportFlowchartContainerRecursive cs items fuel cid depth =
      genBlock [ELine.blank] cs items fuel cid depth := by
  intro fuel
  induction fuel with
  | zero => intro cid depth; rfl
  | succ f ih =>
    intro cid depth
    rw [exportFlowchartContainerRecursive, genBlock]
    rcases h : cs.find? (fun c => c.id == cid) with _ | container
    · simp only [h]
    · simp only [h]
      have hmap : (cs.filter (fun c => c.parentContainerId == some container.id)).map
            (fun cc => exportFlowchartContainerRecursive cs items f cc.id (depth + 1)) =
          (cs.filter (fun c => c.parentContainerId == some container.id)).map
            (fun cc => genBlock [ELine.blank] cs items f cc.id (depth + 1)) :=
        List.map_congr_left (fun cc _ => ih cc.id (depth + 1))
      rw [hmap]
      simp

/-- Token classifiers and counters over emitted lines. -/
def isOpenTok (gid : String) : ELine → Bool
  | ELine.groupOpen g _ => g == gid
  | _ => false

def isCloseTok (gid : String) : ELine → Bool
  | ELine.groupClose g _ => g == gid
  | _ => false

def isNodeTok (iid : String) : ELine → Bool
  | ELine.node i _ => i == iid
  | _ => false

/-- Number of lines matching a token classifier. -/
def countTok (p : ELine → Bool) (l : List ELine) : Nat := (l.filter p).length

theorem countTok_append (p : ELine → Bool) (a b : List ELine) :
    countTok p (a ++ b) = countTok p a + countTok p b := by
  simp [countTok, List.filter_append]

theorem countTok_join (p : ELine → Bool) (ls : List (List ELine)) :
    countTok p ls.join = (ls.map (countTok p)).sum := by
  induction ls with
  | nil => rfl
  | cons a rest ih => simp [List.join, countTok_append, ih]

theorem countTok_nil (p : ELine → Bool) : countTok p [] = 0 := rfl

theorem countTok_singleton (p : ELine → Bool) (t : ELine) :
    countTok p [t] = if p t then 1 else 0 := by
  by_cases h : p t <;> simp [countTok, h]

theorem countTok_pos_of_mem {p : ELine → Bool} {t : ELine} {l : List ELine}
    (hmem : t ∈ l) (hp : p t = true) : 1 ≤ countTok p l := by
  have : t ∈ l.filter p := List.mem_filter.mpr ⟨hmem, hp⟩
  have : l.filter p ≠ [] := List.ne_nil_of_mem this
  have := List.length_pos.mpr this
  simpa [countTok] using this

/-- Diagram validity for the emitter theorems: unique non-empty container
ids, unique item ids, parent references to existing containers, and
acyclicity of the parent relation witnessed by a rank function bounded by
the collection size. -/
def ValidDiagram (cs : List Container) (items : List Item)
    (rank : String → Nat) : Prop :=
  (cs.map Container.id).Nodup ∧
  (items.map Item.id).Nodup ∧
  (∀ c ∈ cs, c.id ≠ "") ∧
  (∀ c ∈ cs, c.parentContainerId = none ∨
    ∃ p ∈ cs, c.parentContainerId = some p.id) ∧
  (∀ c ∈ cs, ∀ p ∈ cs, c.parentContainerId = some p.id →
    rank p.id < rank c.id) ∧
  (∀ c ∈ cs, rank c.id < cs.length)

theorem find?_id_self {cs : List Container}
    (hnd : (cs.map Container.id).Nodup) {c : Container} (hc : c ∈ cs) :
    cs.find? (fun d => d.id == c.id) = some c := by
  induction cs with
  | nil => simp at hc
  | cons a l ih =>
    rw [List.map_cons, List.nodup_cons] at hnd
    by_cases ha : a.id = c.id
    · have hac : a = c := by
        rcases List.mem_cons.mp hc with rfl | hcl
        · rfl
        · exact absurd (ha ▸ List.mem_map_of_mem Container.id hcl) hnd.1
      rw [List.find?_cons_of_pos _ (by simp [ha])]
      rw [hac]
    · have hcl : c ∈ l := by
        rcases List.mem_cons.mp hc with rfl | hcl
        · exact absurd rfl ha
        · exact hcl
      rw [List.find?_cons_of_neg _ (by simp [ha])]
      exact ih hnd.2 hcl

theorem stepsTo_functional {cs : List Container}
    (hnd : (cs.map Container.id).Nodup) {x p p' : String}
    (h1 : StepsTo cs x p) (h2 : StepsTo cs x p') : p = p' := by
  obtain ⟨c1, hc1, hc1id, hc1p⟩ := h1
  obtain ⟨c2, hc2, hc2id, hc2p⟩ := h2
  have : c1 = c2 := container_id_inj hnd hc1 hc2 (hc1id.trans hc2id.symm)
  rw [this] at hc1p
  exact Option.some.inj (hc1p.symm.trans hc2p)

theorem upChain_rank {cs : List Container} {items : List Item}
    {rank : String → Nat} (hv : ValidDiagram cs items rank) {x a : String}
    (h : UpChain cs x a) : rank a < rank x := by
  obtain ⟨-, -, -, hparent, hrank, -⟩ := hv
  induction h with
  | single hs =>
    obtain ⟨c, hc, hcid, hcp⟩ := hs
    rcases hparent c hc with hnone | ⟨q, hq, hqid⟩
    · rw [hnone] at hcp; exact Option.noConfusion hcp
    · have hpq := Option.some.inj (hcp.symm.trans hqid)
      have := hrank c hc q hq hqid
      rw [← hpq, hcid] at this
      exact this
  | cons hs hrest ih =>
    obtain ⟨c, hc, hcid, hcp⟩ := hs
    rcases hparent c hc with hnone | ⟨q, hq, hqid⟩
    · rw [hnone] at hcp; exact Option.noConfusion hcp
    · have hpq := Option.some.inj (hcp.symm.trans hqid)
      have h1 := hrank c hc q hq hqid
      rw [← hpq, hcid] at h1
      exact lt_trans ih h1

theorem upChain_ne {cs : List Container} {items : List Item}
    {rank : String → Nat} (hv : ValidDiagram cs items rank) {x a : String}
    (h : UpChain cs x a) : x ≠ a := by
  intro hxa
  subst hxa
  exact lt_irrefl _ (upChain_rank hv h)

theorem upChain_snoc {cs : List Container} {x y a : String}
    (h : UpChain cs x y) (hs : StepsTo cs y a) : UpChain cs x a := by
  induction h with
  | single h1 => exact UpChain.cons h1 (UpChain.single hs)
  | cons h1 hrest ih => exact UpChain.cons h1 (ih hs)

theorem upChain_trans {cs : List Container} {x y z : String}
    (h1 : UpChain cs x y) (h2 : UpChain cs y z) : UpChain cs x z := by
  induction h1 with
  | single hs => exact UpChain.cons hs h2
  | cons hs hrest ih => exact UpChain.cons hs (ih h2)

theorem upChain_last {cs : List Container} {x a : String}
    (h : UpChain cs x a) :
    StepsTo cs x a ∨ ∃ y, UpChain cs x y ∧ StepsTo cs y a := by
  induction h with
  | single hs => exact Or.inl hs
  | cons hs hrest ih =>
    rcases ih with h1 | ⟨y, hy, hya⟩
    · exact Or.inr ⟨_, UpChain.single hs, h1⟩
    · exact Or.inr ⟨y, UpChain.cons hs hy, hya⟩

/-- The children of a container, as filtered by both emitters. -/
def childrenOf (cs : List Container) (c : Container) : List Container :=
  cs.filter (fun d => d.parentContainerId == some c.id)

theorem mem_childrenOf {cs : List Container} {c d : Container} :
    d ∈ childrenOf cs c ↔ d ∈ cs ∧ d.parentContainerId = some c.id := by
  simp [childrenOf]

theorem child_chain_absurd {cs : List Container} {items : List Item}
    {rank : String → Nat} (hv : ValidDiagram cs items rank)
    {c cc1 cc2 : Container} (hc : c ∈ cs)
    (h1 : cc1 ∈ childrenOf cs c) (h2 : cc2 ∈ childrenOf cs c)
    (hch : UpChain cs cc1.id cc2.id) : False := by
  have hnd := hv.1
  have hrank := hv.2.2.2.2.1
  obtain ⟨hcc1, hp1⟩ := mem_childrenOf.mp h1
  obtain ⟨hcc2, hp2⟩ := mem_childrenOf.mp h2
  obtain ⟨p, hstep, hrest⟩ := upChain_inv hch
  have hpc : p = c.id :=
    stepsTo_functional hnd hstep ⟨cc1, hcc1, rfl, hp1⟩
  subst hpc
  have hr1 : rank c.id < rank cc2.id := hrank cc2 hcc2 c hc hp2
  rcases hrest with hpe | hchain
  · rw [hpe] at hr1
    exact lt_irrefl _ hr1
  · have hr2 : rank cc2.id < rank c.id := upChain_rank hv hchain
    omega

theorem upChain_comparable {cs : List Container}
    (hnd : (cs.map Container.id).Nodup) {x a b : String}
    (h1 : UpChain cs x a) (h2 : UpChain cs x b) :
    a = b ∨ UpChain cs a b ∨ UpChain cs b a := by
  induction h1 generalizing b with
  | single hs =>
    obtain ⟨p, hp, hrest⟩ := upChain_inv h2
    have hpa := stepsTo_functional hnd hp hs
    subst hpa
    rcases hrest with rfl | hchain
    · exact Or.inl rfl
    · exact Or.inr (Or.inl hchain)
  | cons hs hrest ih =>
    obtain ⟨p', hp', hrest'⟩ := upChain_inv h2
    have hpp := stepsTo_functional hnd hp' hs
    subst hpp
    rcases hrest' with rfl | hchain
    · exact Or.inr (Or.inr hrest)
    · exact ih hchain

/-- `gid` names `c` itself or a transitive descendant relation: walking
up from `gid` reaches `c` (equivalently, `c`'s block emits the entity
with id `gid`). -/
def InClosure (cs : List Container) (gid : String) (c : Container) : Prop :=
  gid = c.id ∨ UpChain cs gid c.id

theorem closure_step {cs : List Container} {items : List Item}
    {rank : String → Nat} (hv : ValidDiagram cs items rank)
    {c : Container} (hc : c ∈ cs) {gid : String} (hgid : gid ≠ c.id) :
    UpChain cs gid c.id ↔ ∃ cc ∈ childrenOf cs c, InClosure cs gid cc := by
  constructor
  · intro h
    rcases upChain_last h with hstep | ⟨y, hchain, hstep⟩
    · obtain ⟨c', hc', hc'id, hc'p⟩ := hstep
      exact ⟨c', mem_childrenOf.mpr ⟨hc', hc'p⟩, Or.inl hc'id.symm⟩
    · obtain ⟨c', hc', hc'id, hc'p⟩ := hstep
      refine ⟨c', mem_childrenOf.mpr ⟨hc', hc'p⟩, Or.inr ?_⟩
      rw [hc'id]
      exact hchain
  · rintro ⟨cc, hccmem, hin⟩
    obtain ⟨hccs, hccp⟩ := mem_childrenOf.mp hccmem
    have hstep : StepsTo cs cc.id c.id := ⟨cc, hccs, rfl, hccp⟩
    rcases hin with rfl | hchain
    · exact UpChain.single hstep
    · exact upChain_snoc hchain hstep

theorem closure_child_unique {cs : List Container} {items : List Item}
    {rank : String → Nat} (hv : ValidDiagram cs items rank)
    {c cc1 cc2 : Container} (hc : c ∈ cs)
    (h1 : cc1 ∈ childrenOf cs c) (h2 : cc2 ∈ childrenOf cs c)
    {gid : String} (hg1 : InClosure cs gid cc1) (hg2 : InClosure cs gid cc2) :
    cc1 = cc2 := by
  have hnd := hv.1
  have hcc1 := (mem_childrenOf.mp h1).1
  have hcc2 := (mem_childrenOf.mp h2).1
  rcases hg1 with rfl | hch1
  · rcases hg2 with heq | hch2
    · exact container_id_inj hnd hcc1 hcc2 heq
    · exact absurd hch2 (fun h => child_chain_absurd hv hc h1 h2 h)
  · rcases hg2 with heq | hch2
    · subst heq
      exact absurd hch1 (fun h => child_chain_absurd hv hc h2 h1 h)
    · rcases upChain_comparable hnd hch1 hch2 with heq | hchv | hchv
      · exact container_id_inj hnd hcc1 hcc2 heq
      · exact absurd hchv (fun h => child_chain_absurd hv hc h1 h2 h)
      · exact absurd hchv (fun h => child_chain_absurd hv hc h2 h1 h)

theorem map_sum_zero {α : Type} {l : List α} {f : α → Nat}
    (h : ∀ y ∈ l, f y = 0) : (l.map f).sum = 0 := by
  induction l with
  | nil => rfl
  | cons a t ih =>
    rw [List.map_cons, List.sum_cons, h a (List.mem_cons_self a t),
      ih (fun y hy => h y (List.mem_cons_of_mem a hy))]

theorem map_sum_one {α : Type} [DecidableEq α] {l : List α} {f : α → Nat}
    (hnd : l.Nodup) {x : α} (hx : x ∈ l) (hfx : f x = 1)
    (hz : ∀ y ∈ l, y ≠ x → f y = 0) : (l.map f).sum = 1 := by
  induction l with
  | nil => simp at hx
  | cons a t ih =>
    rw [List.nodup_cons] at hnd
    rcases List.mem_cons.mp hx with rfl | hxt
    · simp only [List.map_cons, List.sum_cons, hfx]
      have : (t.map f).sum = 0 :=
        map_sum_zero (fun y hy => hz y (List.mem_cons_of_mem _ hy)
          (fun hyx => hnd.1 (hyx ▸ hy)))
      omega
    · have hax : a ≠ x := fun h => hnd.1 (h ▸ hxt)
      simp only [List.map_cons, List.sum_cons,
        hz a (List.mem_cons_self a t) hax]
      have := ih hnd.2 hxt
        (fun y hy hyx => hz y (List.mem_cons_of_mem a hy) hyx)
      omega

theorem countTok_cons (p : ELine → Bool) (t : ELine) (l : List ELine) :
    countTok p (t :: l) = (if p t then 1 else 0) + countTok p l := by
  by_cases h : p t
  · simp [countTok, List.filter_cons, h, Nat.add_comm]
  · simp [countTok, List.filter_cons, h]

theorem countTok_eq_zero {p : ELine → Bool} {l : List ELine}
    (h : ∀ t ∈ l, p t = false) : countTok p l = 0 := by
  induction l with
  | nil => rfl
  | cons a t ih =>
    rw [countTok_cons, h a (List.mem_cons_self a t),
      ih (fun x hx => h x (List.mem_cons_of_mem a hx))]
    simp

theorem count_nodes_filter {items : List Item}
    (hnd : (items.map Item.id).Nodup) {it : Item} (hit : it ∈ items)
    (q : Item → Bool) (d : Nat) :
    countTok (isNodeTok it.id)
      ((items.filter q).map (fun j => ELine.node j.id d)) =
    if q it then 1 else 0 := by
  induction items with
  | nil => simp at hit
  | cons a t ih =>
    rw [List.map_cons, List.nodup_cons] at hnd
    rcases List.mem_cons.mp hit with rfl | hitt
    · have hz : countTok (isNodeTok it.id)
          ((t.filter q).map (fun j => ELine.node j.id d)) = 0 := by
        apply countTok_eq_zero
        intro tok htok
        obtain ⟨j, hj, hje⟩ := List.mem_map.mp htok
        rw [← hje]
        have hjt : j ∈ t := List.mem_of_mem_filter hj
        have : j.id ≠ it.id := fun h => hnd.1 (h ▸ List.mem_map_of_mem Item.id hjt)
        simp [isNodeTok, this]
      by_cases hq : q it
      · rw [List.filter_cons_of_pos hq, List.map_cons, countTok_cons, hz]
        simp [isNodeTok, hq]
      · rw [List.filter_cons_of_neg hq, hz]
        simp [hq]
    · have haid : a.id ≠ it.id :=
        fun h => hnd.1 (h ▸ List.mem_map_of_mem Item.id hitt)
      by_cases hq : q a
      · rw [List.filter_cons_of_pos hq, List.map_cons, countTok_cons]
        rw [ih hnd.2 hitt]
        simp [isNodeTok, haid]
      · rw [List.filter_cons_of_neg hq]
        exact ih hnd.2 hitt

theorem children_sum {cs : List Container} {items : List Item}
    {rank : String → Nat} (hv : ValidDiagram cs items rank)
    {c : Container} (hc : c ∈ cs) (gid : String) (g : Container → Nat)
    (hone : ∀ cc ∈ childrenOf cs c, InClosure cs gid cc → g cc = 1)
    (hzero : ∀ cc ∈ childrenOf cs c, ¬ InClosure cs gid cc → g cc = 0) :
    (gid ≠ c.id → UpChain cs gid c.id → ((childrenOf cs c).map g).sum = 1) ∧
    (¬ InClosure cs gid c → ((childrenOf cs c).map g).sum = 0) ∧
    (gid = c.id → ((childrenOf cs c).map g).sum = 0) := by
  have hnd := hv.1
  have hrank := hv.2.2.2.2.1
  have hchildnd : (childrenOf cs c).Nodup :=
    (List.Nodup.of_map _ hnd).filter _
  refine ⟨?_, ?_, ?_⟩
  · intro hne hch
    obtain ⟨ccx, hccx, hinx⟩ := (closure_step hv hc hne).mp hch
    refine map_sum_one hchildnd hccx (hone ccx hccx hinx) ?_
    intro y hy hyne
    refine hzero y hy (fun hin => hyne ?_)
    exact closure_child_unique hv hc hy hccx hin hinx
  · intro hno
    refine map_sum_zero ?_
    intro cc hcc
    refine hzero cc hcc (fun hin => hno ?_)
    rcases hin with rfl | hch
    · exact Or.inr ((closure_step hv hc (fun h => hno (Or.inl h))).mpr
        ⟨cc, hcc, Or.inl rfl⟩)
    · exact Or.inr ((closure_step hv hc (fun h => hno (Or.inl h))).mpr
        ⟨cc, hcc, Or.inr hch⟩)
  · intro heq
    subst heq
    refine map_sum_zero ?_
    intro cc hcc
    refine hzero cc hcc ?_
    obtain ⟨hccs, hccp⟩ := mem_childrenOf.mp hcc
    rintro (hid | hch)
    · have hcceq : cc = c := container_id_inj hnd hccs hc hid.symm
      rw [hcceq] at hccp
      exact absurd (hrank c hc c hc hccp) (lt_irrefl _)
    · have h1 : rank c.id < rank cc.id := hrank cc hccs c hc hccp
      have h2 : rank cc.id < rank c.id := upChain_rank hv hch
      omega

theorem genBlock_counts {cs : List Container} {items : List Item}
    {rank : String → Nat} (pre : List ELine) (hv : ValidDiagram cs items rank)
    (hpre : ∀ t ∈ pre, t = ELine.blank) :
    ∀ fuel, ∀ c ∈ cs, cs.length - rank c.id ≤ fuel → ∀ depth,
      (∀ gid,
        (InClosure cs gid c →
          countTok (isOpenTok gid) (genBlock pre cs items fuel c.id depth) = 1 ∧
          countTok (isCloseTok gid) (genBlock pre cs items fuel c.id depth) = 1) ∧
        (¬ InClosure cs gid c →
          countTok (isOpenTok gid) (genBlock pre cs items fuel c.id depth) = 0 ∧
          countTok (isCloseTok gid) (genBlock pre cs items fuel c.id depth) = 0)) ∧
      (∀ it ∈ items,
        ((∃ p, it.parentContainerId = some p ∧ InClosure cs p c) →
          countTok (isNodeTok it.id) (genBlock pre cs items fuel c.id depth) = 1) ∧
        (¬ (∃ p, it.parentContainerId = some p ∧ InClosure cs p c) →
          countTok (isNodeTok it.id) (genBlock pre cs items fuel c.id depth) = 0)) := by
  intro fuel
  induction fuel with
  | zero =>
    intro c hc hfuel
    have := hv.2.2.2.2.2 c hc
    omega
  | succ f ih =>
    intro c hc hfuel depth
    have hfind : cs.find? (fun d => d.id == c.id) = some c := find?_id_self hv.1 hc
    have hblock : genBlock pre cs items (f + 1) c.id depth =
        pre ++ [ELine.groupOpen c.id depth]
          ++ (items.filter (fun it => it.parentContainerId == some c.id)).map
              (fun it => ELine.node it.id (depth + 1))
          ++ ((childrenOf cs c).map
              (fun cc => genBlock pre cs items f cc.id (depth + 1))).join
          ++ [ELine.groupClose c.id depth] := by
      rw [genBlock]
      simp only [hfind]
      rfl
    have hchild : ∀ cc ∈ childrenOf cs c, cc ∈ cs ∧ cs.length - rank cc.id ≤ f := by
      intro cc hcc
      obtain ⟨hccs, hccp⟩ := mem_childrenOf.mp hcc
      have hr : rank c.id < rank cc.id := hv.2.2.2.2.1 cc hccs c hc hccp
      exact ⟨hccs, by omega⟩
    have hsplit : ∀ p : ELine → Bool,
        countTok p (genBlock pre cs items (f + 1) c.id depth) =
          countTok p pre + countTok p [ELine.groupOpen c.id depth] +
          countTok p ((items.filter
            (fun it => it.parentContainerId == some c.id)).map
              (fun it => ELine.node it.id (depth + 1))) +
          ((childrenOf cs c).map
            (fun cc => countTok p (genBlock pre cs items f cc.id (depth + 1)))).sum +
          countTok p [ELine.groupClose c.id depth] := by
      intro p
      rw [hblock]
      rw [countTok_append, countTok_append, countTok_append, countTok_append]
      rw [countTok_join, List.map_map]
      rfl
    constructor
    · intro gid
      have hpreO : countTok (isOpenTok gid) pre = 0 :=
        countTok_eq_zero (fun t ht => by rw [hpre t ht]; rfl)
      have hpreC : countTok (isCloseTok gid) pre = 0 :=
        countTok_eq_zero (fun t ht => by rw [hpre t ht]; rfl)
      have hnodesO : countTok (isOpenTok gid)
          ((items.filter (fun it => it.parentContainerId == some c.id)).map
            (fun it => ELine.node it.id (depth + 1))) = 0 := by
        apply countTok_eq_zero
        intro t ht
        obtain ⟨j, hj, hje⟩ := List.mem_map.mp ht
        rw [← hje]; rfl
      have hnodesC : countTok (isCloseTok gid)
          ((items.filter (fun it => it.parentContainerId == some c.id)).map
            (fun it => ELine.node it.id (depth + 1))) = 0 := by
        apply countTok_eq_zero
        intro t ht
        obtain ⟨j, hj, hje⟩ := List.mem_map.mp ht
        rw [← hje]; rfl
      have hsumO := children_sum hv hc gid
        (fun cc => countTok (isOpenTok gid) (genBlock pre cs items f cc.id (depth + 1)))
        (fun cc hcc hin =>
          (((ih cc (hchild cc hcc).1 (hchild cc hcc).2 (depth + 1)).1 gid).1 hin).1)
        (fun cc hcc hnin =>
          (((ih cc (hchild cc hcc).1 (hchild cc hcc).2 (depth + 1)).1 gid).2 hnin).1)
      have hsumC := children_sum hv hc gid
        (fun cc => countTok (isCloseTok gid) (genBlock pre cs items f cc.id (depth + 1)))
        (fun cc hcc hin =>
          (((ih cc (hchild cc hcc).1 (hchild cc hcc).2 (depth + 1)).1 gid).1 hin).2)
        (fun cc hcc hnin =>
          (((ih cc (hchild cc hcc).1 (hchild cc hcc).2 (depth + 1)).1 gid).2 hnin).2)
      constructor
      · rintro (rfl | hch)
        · constructor
          · rw [hsplit, hpreO, hnodesO, hsumO.2.2 rfl]
            simp [countTok_singleton, isOpenTok, isCloseTok]
          · rw [hsplit, hpreC, hnodesC, hsumC.2.2 rfl]
            simp [countTok_singleton, isOpenTok, isCloseTok]
        · have hne : gid ≠ c.id := upChain_ne hv hch
          constructor
          · rw [hsplit, hpreO, hnodesO, hsumO.1 hne hch]
            simp [countTok_singleton, isOpenTok, isCloseTok, Ne.symm hne]
          · rw [hsplit, hpreC, hnodesC, hsumC.1 hne hch]
            simp [countTok_singleton, isOpenTok, isCloseTok, Ne.symm hne]
      · intro hnin
        have hne : gid ≠ c.id := fun h => hnin (Or.inl h)
        constructor
        · rw [hsplit, hpreO, hnodesO, hsumO.2.1 hnin]
          simp [countTok_singleton, isOpenTok, isCloseTok, Ne.symm hne]
        · rw [hsplit, hpreC, hnodesC, hsumC.2.1 hnin]
          simp [countTok_singleton, isOpenTok, isCloseTok, Ne.symm hne]
    · intro it hit
      have hpreN : countTok (isNodeTok it.id) pre = 0 :=
        countTok_eq_zero (fun t ht => by rw [hpre t ht]; rfl)
      have hopenN : countTok (isNodeTok it.id) [ELine.groupOpen c.id depth] = 0 := by
        rfl
      have hcloseN : countTok (isNodeTok it.id) [ELine.groupClose c.id depth] = 0 := by
        rfl
      have hdirect := count_nodes_filter hv.2.1 hit
        (fun j => j.parentContainerId == some c.id) (depth + 1)
      constructor
      · rintro ⟨p, hp, hin⟩
        have hsumN := children_sum hv hc p
          (fun cc => countTok (isNodeTok it.id)
            (genBlock pre cs items f cc.id (depth + 1)))
          (fun cc hcc hinc =>
            ((ih cc (hchild cc hcc).1 (hchild cc hcc).2 (depth + 1)).2 it hit).1
              ⟨p, hp, hinc⟩)
          (fun cc hcc hninc =>
            ((ih cc (hchild cc hcc).1 (hchild cc hcc).2 (depth + 1)).2 it hit).2
              (fun hex => by
                obtain ⟨p', hp', hin'⟩ := hex
                rw [hp] at hp'
                exact hninc (Option.some.inj hp' ▸ hin')))
        rcases hin with rfl | hch
        · have hq : (it.parentContainerId == some c.id) = true := by
            rw [hp]; simp
          rw [hsplit, hpreN, hopenN, hcloseN, hdirect, hq, hsumN.2.2 rfl]
          simp
        · have hne : p ≠ c.id := upChain_ne hv hch
          have hq : (it.parentContainerId == some c.id) = false := by
            rw [hp]; simp [hne]
          rw [hsplit, hpreN, hopenN, hcloseN, hdirect, hq, hsumN.1 hne hch]
          simp
      · intro hnex
        have hq : (it.parentContainerId == some c.id) = false := by
          rcases hpp : it.parentContainerId with _ | p
          · rfl
          · have hne : p ≠ c.id := fun h => hnex ⟨p, hpp, Or.inl h⟩
            simp [hne]
        have hsumZ : ((childrenOf cs c).map
            (fun cc => countTok (isNodeTok it.id)
              (genBlock pre cs items f cc.id (depth + 1)))).sum = 0 := by
          apply map_sum_zero
          intro cc hcc
          refine ((ih cc (hchild cc hcc).1 (hchild cc hcc).2 (depth + 1)).2 it hit).2 ?_
          rintro ⟨p', hp', hin'⟩
          obtain ⟨hccs, hccp⟩ := mem_childrenOf.mp hcc
          refine hnex ⟨p', hp', ?_⟩
          by_cases hpe : p' = c.id
          · exact Or.inl hpe
          · exact Or.inr ((closure_step hv hc hpe).mpr ⟨cc, hcc, hin'⟩)
        rw [hsplit, hpreN, hopenN, hcloseN, hdirect, hq, hsumZ]
        simp

/-- The root containers, as filtered by both emitters
(`!container.parentContainerId`). -/
def rootsOf (cs : List Container) : List Container :=
  cs.filter (fun c => !(optTruthy c.parentContainerId))

theorem mem_rootsOf {cs : List Container} {items : List Item}
    {rank : String → Nat} (hv : ValidDiagram cs items rank) {r : Container} :
    r ∈ rootsOf cs ↔ r ∈ cs ∧ r.parentContainerId = none := by
  rw [rootsOf, List.mem_filter]
  constructor
  · rintro ⟨hr, htr⟩
    refine ⟨hr, ?_⟩
    rcases hv.2.2.2.1 r hr with hnone | ⟨p, hp, hpid⟩
    · exact hnone
    · rw [hpid] at htr
      simp [optTruthy, hv.2.2.1 p hp] at htr
  · rintro ⟨hr, hnone⟩
    exact ⟨hr, by simp [hnone, optTruthy]⟩

theorem no_step_from_root {cs : List Container} {items : List Item}
    {rank : String → Nat} (hv : ValidDiagram cs items rank) {r : Container}
    (hr : r ∈ rootsOf cs) : ∀ p, ¬ StepsTo cs r.id p := by
  rintro p ⟨c, hc, hcid, hcp⟩
  obtain ⟨hrs, hrnone⟩ := (mem_rootsOf hv).mp hr
  have : c = r := container_id_inj hv.1 hc hrs hcid
  rw [this, hrnone] at hcp
  exact Option.noConfusion hcp

theorem root_anc {cs : List Container} {items : List Item}
    {rank : String → Nat} (hv : ValidDiagram cs items rank) :
    ∀ g ∈ cs, ∃ r ∈ rootsOf cs, InClosure cs g.id r ∧
      ∀ r' ∈ rootsOf cs, InClosure cs g.id r' → r' = r := by
  have hex : ∀ n, ∀ g ∈ cs, rank g.id ≤ n → ∃ r ∈ rootsOf cs, InClosure cs g.id r := by
    intro n
    induction n with
    | zero =>
      intro g hg hn
      rcases hv.2.2.2.1 g hg with hnone | ⟨p, hp, hpid⟩
      · exact ⟨g, (mem_rootsOf hv).mpr ⟨hg, hnone⟩, Or.inl rfl⟩
      · have := hv.2.2.2.2.1 g hg p hp hpid
        omega
    | succ n ih =>
      intro g hg hn
      rcases hv.2.2.2.1 g hg with hnone | ⟨p, hp, hpid⟩
      · exact ⟨g, (mem_rootsOf hv).mpr ⟨hg, hnone⟩, Or.inl rfl⟩
      · have hlt := hv.2.2.2.2.1 g hg p hp hpid
        obtain ⟨r, hr, hin⟩ := ih p hp (by omega)
        have hstep : StepsTo cs g.id p.id := ⟨g, hg, rfl, hpid⟩
        refine ⟨r, hr, Or.inr ?_⟩
        rcases hin with heq | hch
        · rw [← heq]
          exact UpChain.single hstep
        · exact UpChain.cons hstep hch
  intro g hg
  obtain ⟨r, hr, hin⟩ := hex (rank g.id) g hg (le_refl _)
  refine ⟨r, hr, hin, ?_⟩
  intro r' hr' hin'
  rcases hin with heq | hch
  · rcases hin' with heq' | hch'
    · exact container_id_inj hv.1 ((mem_rootsOf hv).mp hr').1
        ((mem_rootsOf hv).mp hr).1 (heq'.symm.trans heq)
    · rw [heq] at hch'
      obtain ⟨p, hstep, -⟩ := upChain_inv hch'
      exact absurd hstep (no_step_from_root hv hr p)
  · rcases hin' with heq' | hch'
    · rw [heq'] at hch
      obtain ⟨p, hstep, -⟩ := upChain_inv hch
      exact absurd hstep (no_step_from_root hv hr' p)
    · rcases upChain_comparable hv.1 hch hch' with heq2 | hchv | hchv
      · exact container_id_inj hv.1 ((mem_rootsOf hv).mp hr').1
          ((mem_rootsOf hv).mp hr).1 heq2.symm
      · obtain ⟨p, hstep, -⟩ := upChain_inv hchv
        exact absurd hstep (no_step_from_root hv hr p)
      · obtain ⟨p, hstep, -⟩ := upChain_inv hchv
        exact absurd hstep (no_step_from_root hv hr' p)

theorem closure_owner {cs : List Container} {p : String} {q : Container}
    (hq : q ∈ cs) (hin : InClosure cs p q) : ∃ cp ∈ cs, cp.id = p := by
  rcases hin with rfl | hch
  · exact ⟨q, hq, rfl⟩
  · obtain ⟨y, ⟨c, hc, hcid, -⟩, -⟩ := upChain_inv hch
    exact ⟨c, hc, hcid⟩

theorem closure_trans {cs : List Container} {items : List Item}
    {rank : String → Nat} (hv : ValidDiagram cs items rank)
    {p : String} {q r : Container}
    (h1 : InClosure cs p q) (h2 : InClosure cs q.id r) : InClosure cs p r := by
  rcases h1 with rfl | hch1
  · exact h2
  · rcases h2 with heq | hch2
    · exact Or.inr (heq ▸ hch1)
    · exact Or.inr (upChain_trans hch1 hch2)

theorem roots_join_counts {cs : List Container} {items : List Item}
    {rank : String → Nat} (hv : ValidDiagram cs items rank)
    (pre post : List ELine) (hpre : ∀ t ∈ pre, t = ELine.blank)
    (hpost : ∀ t ∈ post, t = ELine.blank) (d0 : Nat) :
    (∀ g ∈ cs,
      countTok (isOpenTok g.id)
        (((rootsOf cs).map
          (fun r => genBlock pre cs items cs.length r.id d0 ++ post)).join) = 1 ∧
      countTok (isCloseTok g.id)
        (((rootsOf cs).map
          (fun r => genBlock pre cs items cs.length r.id d0 ++ post)).join) = 1) ∧
    (∀ it ∈ items, ∀ p, it.parentContainerId = some p →
      ∀ q ∈ cs, InClosure cs p q →
      countTok (isNodeTok it.id)
        (((rootsOf cs).map
          (fun r => genBlock pre cs items cs.length r.id d0 ++ post)).join) = 1) := by
  have hrootnd : (rootsOf cs).Nodup := (List.Nodup.of_map _ hv.1).filter _
  have hrootfuel : ∀ r ∈ rootsOf cs, r ∈ cs ∧ cs.length - rank r.id ≤ cs.length := by
    intro r hr
    exact ⟨((mem_rootsOf hv).mp hr).1, by omega⟩
  have hsplit : ∀ p : ELine → Bool, (∀ t ∈ post, p t = false) →
      countTok p (((rootsOf cs).map
        (fun r => genBlock pre cs items cs.length r.id d0 ++ post)).join) =
      ((rootsOf cs).map
        (fun r => countTok p (genBlock pre cs items cs.length r.id d0))).sum := by
    intro p hp
    rw [countTok_join, List.map_map]
    congr 1
    apply List.map_congr_left
    intro r _
    simp only [Function.comp_apply]
    rw [countTok_append, countTok_eq_zero hp]
    simp
  constructor
  · intro g hg
    obtain ⟨r, hr, hin, huniq⟩ := root_anc hv g hg
    constructor
    · rw [hsplit _ (fun t ht => by rw [hpost t ht]; rfl)]
      refine map_sum_one hrootnd hr
        (((genBlock_counts pre hv hpre cs.length r (hrootfuel r hr).1
          (hrootfuel r hr).2 d0).1 g.id).1 hin).1 ?_
      intro r' hr' hne
      refine (((genBlock_counts pre hv hpre cs.length r' (hrootfuel r' hr').1
        (hrootfuel r' hr').2 d0).1 g.id).2 ?_).1
      exact fun hin' => hne (huniq r' hr' hin')
    · rw [hsplit _ (fun t ht => by rw [hpost t ht]; rfl)]
      refine map_sum_one hrootnd hr
        (((genBlock_counts pre hv hpre cs.length r (hrootfuel r hr).1
          (hrootfuel r hr).2 d0).1 g.id).1 hin).2 ?_
      intro r' hr' hne
      refine (((genBlock_counts pre hv hpre cs.length r' (hrootfuel r' hr').1
        (hrootfuel r' hr').2 d0).1 g.id).2 ?_).2
      exact fun hin' => hne (huniq r' hr' hin')
  · intro it hit p hp q hq hinpq
    obtain ⟨cp, hcp, hcpid⟩ := closure_owner hq hinpq
    obtain ⟨r, hr, hinr, huniq⟩ := root_anc hv cp hcp
    have hinpr : InClosure cs p r := hcpid ▸ hinr
    rw [hsplit _ (fun t ht => by rw [hpost t ht]; rfl)]
    refine map_sum_one hrootnd hr
      (((genBlock_counts pre hv hpre cs.length r (hrootfuel r hr).1
        (hrootfuel r hr).2 d0).2 it hit).1 ⟨p, hp, hinpr⟩) ?_
    intro r' hr' hne
    refine ((genBlock_counts pre hv hpre cs.length r' (hrootfuel r' hr').1
      (hrootfuel r' hr').2 d0).2 it hit).2 ?_
    rintro ⟨p', hp', hin'⟩
    rw [hp] at hp'
    have hpp' : p' = p := Option.some.inj hp'.symm
    subst hpp'
    refine hne (huniq r' hr' ?_)
    rw [hcpid]
    exact hin'

theorem exportEraserLines_decomp (cs : List Container) (items : List Item)
    (conns : List Connection) :
    exportEraserLines cs items conns =
      ([ELine.header, ELine.blank]
        ++ (items.filter (fun it => !(optTruthy it.parentContainerId))).map
            (fun it => ELine.node it.id 0)
        ++ (if (items.filter (fun it => !(optTruthy it.parentContainerId))).length > 0
            then [ELine.blank] else []))
      ++ ((rootsOf cs).map
          (fun r => genBlock [] cs items cs.length r.id 0 ++ [ELine.blank])).join
      ++ (if conns.length > 0 then ELine.connHeader :: conns.map connTok else []) := by
  rw [exportEraserLines]
  simp only [rootsOf, exportContainerRecursive_eq_genBlock, List.append_assoc]

theorem exportFlowchartLines_decomp (cs : List Container) (items : List Item)
    (conns : List Connection) :
    exportFlowchartLines cs items conns =
      ([ELine.header]
        ++ (items.filter (fun it => !(optTruthy it.parentContainerId))).map
            (fun it => ELine.node it.id 1))
      ++ ((rootsOf cs).map
          (fun r => genBlock [ELine.blank] cs items cs.length r.id 1 ++ ([] : List ELine))).join
      ++ ((if conns.length > 0 then
            [ELine.blank, ELine.connHeader] ++ conns.map connTok else [])
          ++ ([ELine.blank, ELine.styleHeader]
          ++ items.map (fun it => ELine.styleLine it.id))) := by
  rw [exportFlowchartLines]
  simp only [rootsOf, exportFlowchartContainerRecursive_eq_genBlock,
    List.append_assoc, List.append_nil]

/-- The line tokens in front of / behind the root blocks carry no
group-open, group-close or node line for any id: they are headers,
blanks, connection lines, style lines, or (in the prefix) node lines of
parentless items only. -/
def eraserTopPart (items : List Item) : List ELine :=
  [ELine.header, ELine.blank]
    ++ (items.filter (fun it => !(optTruthy it.parentContainerId))).map
        (fun it => ELine.node it.id 0)
    ++ (if (items.filter (fun it => !(optTruthy it.parentContainerId))).length > 0
        then [ELine.blank] else [])

def eraserConnPart (conns : List Connection) : List ELine :=
  if conns.length > 0 then ELine.connHeader :: conns.map connTok else []

def flowTopPart (items : List Item) : List ELine :=
  [ELine.header]
    ++ (items.filter (fun it => !(optTruthy it.parentContainerId))).map
        (fun it => ELine.node it.id 1)

def flowTailPart (items : List Item) (conns : List Connection) : List ELine :=
  (if conns.length > 0 then
    [ELine.blank, ELine.connHeader] ++ conns.map connTok else [])
  ++ ([ELine.blank, ELine.styleHeader]
  ++ items.map (fun it => ELine.styleLine it.id))

theorem countTok_nodeMap_open (gid : String) (l : List Item) (d : Nat)
    (f : Item → ELine) (hf : ∀ j, f j = ELine.node j.id d) :
    countTok (isOpenTok gid) (l.map f) = 0 ∧
    countTok (isCloseTok gid) (l.map f) = 0 := by
  constructor <;>
  · apply countTok_eq_zero
    intro t ht
    obtain ⟨j, -, hje⟩ := List.mem_map.mp ht
    rw [← hje, hf j]
    rfl

theorem countTok_connMap_zero (p : ELine → Bool)
    (hp : ∀ a b lab, p (ELine.conn a b lab) = false) (l : List Connection) :
    countTok p (l.map connTok) = 0 := by
  apply countTok_eq_zero
  intro t ht
  obtain ⟨cn, -, hje⟩ := List.mem_map.mp ht
  rw [← hje, connTok]
  exact hp cn.cfrom cn.cto _

theorem countTok_blankIf (p : ELine → Bool) (hp : p ELine.blank = false)
    (c : Prop) [Decidable c] :
    countTok p (if c then [ELine.blank] else []) = 0 := by
  by_cases hc : c
  · rw [if_pos hc, countTok_singleton, hp]
    rfl
  · rw [if_neg hc]
    rfl

theorem eraserTopPart_open (items : List Item) (gid : String) :
    countTok (isOpenTok gid) (eraserTopPart items) = 0 ∧
    countTok (isCloseTok gid) (eraserTopPart items) = 0 := by
  have hm := countTok_nodeMap_open gid
    (items.filter (fun it => !(optTruthy it.parentContainerId))) 0 _
    (fun j => rfl)
  constructor <;>
  · rw [eraserTopPart, countTok_append, countTok_append]
    rw [countTok_blankIf _ (by rfl)]
    first
      | rw [hm.1]
      | rw [hm.2]
    rfl

theorem eraserConnPart_zero (conns : List Connection) (gid : String) :
    countTok (isOpenTok gid) (eraserConnPart conns) = 0 ∧
    countTok (isCloseTok gid) (eraserConnPart conns) = 0 ∧
    countTok (isNodeTok gid) (eraserConnPart conns) = 0 := by
  refine ⟨?_, ?_, ?_⟩ <;>
  · rw [eraserConnPart]
    by_cases hc : conns.length > 0
    · rw [if_pos hc, countTok_cons]
      rw [countTok_connMap_zero _ (fun a b lab => rfl)]
      rfl
    · rw [if_neg hc]
      rfl

theorem flowTopPart_open (items : List Item) (gid : String) :
    countTok (isOpenTok gid) (flowTopPart items) = 0 ∧
    countTok (isCloseTok gid) (flowTopPart items) = 0 := by
  have hm := countTok_nodeMap_open gid
    (items.filter (fun it => !(optTruthy it.parentContainerId))) 1 _
    (fun j => rfl)
  constructor <;>
  · rw [flowTopPart, countTok_append]
    first
      | rw [hm.1]
      | rw [hm.2]
    rfl

theorem countTok_styleMap_zero (p : ELine → Bool)
    (hp : ∀ iid, p (ELine.styleLine iid) = false) (l : List Item) :
    countTok p (l.map (fun it => ELine.styleLine it.id)) = 0 := by
  apply countTok_eq_zero
  intro t ht
  obtain ⟨j, -, hje⟩ := List.mem_map.mp ht
  rw [← hje]
  exact hp j.id

theorem flowTailPart_zero (items : List Item) (conns : List Connection)
    (gid : String) :
    countTok (isOpenTok gid) (flowTailPart items conns) = 0 ∧
    countTok (isCloseTok gid) (flowTailPart items conns) = 0 ∧
    countTok (isNodeTok gid) (flowTailPart items conns) = 0 := by
  refine ⟨?_, ?_, ?_⟩ <;>
  · rw [flowTailPart, countTok_append, countTok_append]
    rw [countTok_styleMap_zero _ (fun iid => rfl)]
    have hconns : ∀ p : ELine → Bool, p ELine.blank = false →
        p ELine.connHeader = false →
        (∀ a b lab, p (ELine.conn a b lab) = false) →
        countTok p (if conns.length > 0 then
          [ELine.blank, ELine.connHeader] ++ conns.map connTok else []) = 0 := by
      intro p hb hh hcn
      by_cases hc : conns.length > 0
      · rw [if_pos hc, countTok_append, countTok_cons, countTok_cons, hb, hh,
          countTok_nil, countTok_connMap_zero _ hcn]
        simp
      · rw [if_neg hc]
        rfl
    rw [hconns _ (by rfl) (by rfl) (fun a b lab => rfl)]
    rfl

theorem eraserTopPart_node {items : List Item}
    (hnd : (items.map Item.id).Nodup) {it : Item} (hit : it ∈ items)
    {p : String} (hp : it.parentContainerId = some p) (hpne : p ≠ "") :
    countTok (isNodeTok it.id) (eraserTopPart items) = 0 := by
  rw [eraserTopPart, countTok_append, countTok_append]
  have h1 : countTok (isNodeTok it.id) [ELine.header, ELine.blank] = 0 := rfl
  have h2 : countTok (isNodeTok it.id)
      ((items.filter (fun j => !(optTruthy j.parentContainerId))).map
        (fun j => ELine.node j.id 0)) = 0 := by
    rw [count_nodes_filter hnd hit]
    have : (!(optTruthy it.parentContainerId)) = false := by
      rw [hp]
      simp [optTruthy, hpne]
    rw [this]
    rfl
  have h3 : countTok (isNodeTok it.id)
      (if (items.filter (fun j => !(optTruthy j.parentContainerId))).length > 0
       then [ELine.blank] else []) = 0 := by
    by_cases hc : (items.filter
        (fun j => !(optTruthy j.parentContainerId))).length > 0
    · rw [if_pos hc]; rfl
    · rw [if_neg hc]; rfl
  rw [h1, h2, h3]

theorem flowTopPart_node {items : List Item}
    (hnd : (items.map Item.id).Nodup) {it : Item} (hit : it ∈ items)
    {p : String} (hp : it.parentContainerId = some p) (hpne : p ≠ "") :
    countTok (isNodeTok it.id) (flowTopPart items) = 0 := by
  rw [flowTopPart, countTok_append]
  have h1 : countTok (isNodeTok it.id) [ELine.header] = 0 := rfl
  have h2 : countTok (isNodeTok it.id)
      ((items.filter (fun j => !(optTruthy j.parentContainerId))).map
        (fun j => ELine.node j.id 1)) = 0 := by
    rw [count_nodes_filter hnd hit]
    have : (!(optTruthy it.parentContainerId)) = false := by
      rw [hp]
      simp [optTruthy, hpne]
    rw [this]
    rfl
  rw [h1, h2]

theorem block_infix {cs : List Container} {items : List Item}
    {rank : String → Nat} (hv : ValidDiagram cs items rank)
    (pre post : List ELine) (d0 : Nat) (T C : List ELine) :
    ∀ n, ∀ g ∈ cs, rank g.id ≤ n →
      ∃ A B d f, 1 ≤ f ∧ cs.length - rank g.id ≤ f ∧
        T ++ ((rootsOf cs).map
          (fun r => genBlock pre cs items cs.length r.id d0 ++ post)).join ++ C =
        A ++ genBlock pre cs items f g.id d ++ B := by
  have hroot : ∀ g ∈ cs, g.parentContainerId = none →
      ∃ A B d f, 1 ≤ f ∧ cs.length - rank g.id ≤ f ∧
        T ++ ((rootsOf cs).map
          (fun r => genBlock pre cs items cs.length r.id d0 ++ post)).join ++ C =
        A ++ genBlock pre cs items f g.id d ++ B := by
    intro g hg hnone
    have hgr : g ∈ rootsOf cs := (mem_rootsOf hv).mpr ⟨hg, hnone⟩
    obtain ⟨R1, R2, hsplit⟩ := List.append_of_mem hgr
    refine ⟨T ++ (R1.map
        (fun r => genBlock pre cs items cs.length r.id d0 ++ post)).join,
      post ++ (R2.map
        (fun r => genBlock pre cs items cs.length r.id d0 ++ post)).join ++ C,
      d0, cs.length, List.length_pos.mpr (List.ne_nil_of_mem hg), by omega, ?_⟩
    rw [hsplit]
    simp [List.map_append, List.join_append, List.append_assoc]
  intro n
  induction n with
  | zero =>
    intro g hg hn
    rcases hv.2.2.2.1 g hg with hnone | ⟨p, hp, hpid⟩
    · exact hroot g hg hnone
    · have := hv.2.2.2.2.1 g hg p hp hpid
      omega
  | succ n ih =>
    intro g hg hn
    rcases hv.2.2.2.1 g hg with hnone | ⟨p, hp, hpid⟩
    · exact hroot g hg hnone
    · have hlt := hv.2.2.2.2.1 g hg p hp hpid
      obtain ⟨A, B, d, f, hf1, hf2, hL⟩ := ih p hp (by omega)
      obtain ⟨f', rfl⟩ : ∃ f', f = f' + 1 := ⟨f - 1, by omega⟩
      have hfind := find?_id_self hv.1 hp
      have hgchild : g ∈ childrenOf cs p := mem_childrenOf.mpr ⟨hg, hpid⟩
      obtain ⟨C1, C2, hcsplit⟩ := List.append_of_mem hgchild
      have hbound := hv.2.2.2.2.2 g hg
      refine ⟨A ++ pre ++ [ELine.groupOpen p.id d]
          ++ (items.filter (fun it => it.parentContainerId == some p.id)).map
              (fun it => ELine.node it.id (d + 1))
          ++ (C1.map (fun cc => genBlock pre cs items f' cc.id (d + 1))).join,
        (C2.map (fun cc => genBlock pre cs items f' cc.id (d + 1))).join
          ++ [ELine.groupClose p.id d] ++ B,
        d + 1, f', by omega, by omega, ?_⟩
      rw [hL]
      have hblock : genBlock pre cs items (f' + 1) p.id d =
          pre ++ [ELine.groupOpen p.id d]
            ++ (items.filter (fun it => it.parentContainerId == some p.id)).map
                (fun it => ELine.node it.id (d + 1))
            ++ ((childrenOf cs p).map
                (fun cc => genBlock pre cs items f' cc.id (d + 1))).join
            ++ [ELine.groupClose p.id d] := by
        rw [genBlock]
        simp only [hfind]
        rfl
      rw [hblock, hcsplit]
      simp [List.map_append, List.join_append, List.append_assoc]

theorem tok_position {L X M B : List ELine} {a b : ELine}
    (hL : L = X ++ [a] ++ M ++ [b] ++ B) (p : ELine → Bool)
    (hX : countTok p X = 0) (hB : countTok p B = 0)
    (ha : p a = false) (hb : p b = false) :
    ∀ k t, L[k]? = some t → p t = true →
      X.length < k ∧ k < X.length + 1 + M.length := by
  intro k t hk hp
  have hL' : L = X ++ (a :: (M ++ (b :: B))) := by
    rw [hL]; simp [List.append_assoc]
  rw [hL'] at hk
  by_cases h1 : k < X.length
  · rw [List.getElem?_append_left h1] at hk
    have := countTok_pos_of_mem (List.getElem?_mem hk) hp
    omega
  · push_neg at h1
    rw [List.getElem?_append_right h1] at hk
    rcases hm : k - X.length with _ | m
    · rw [hm] at hk
      rw [List.getElem?_cons_zero] at hk
      have hta : a = t := Option.some.inj hk
      rw [← hta, ha] at hp
      exact Bool.noConfusion hp
    · rw [hm] at hk
      simp only [List.getElem?_cons_succ] at hk
      by_cases h2 : m < M.length
      · constructor <;> omega
      · push_neg at h2
        rw [List.getElem?_append_right h2] at hk
        rcases hm2 : m - M.length with _ | m2
        · rw [hm2] at hk
          rw [List.getElem?_cons_zero] at hk
          have htb : b = t := Option.some.inj hk
          rw [← htb, hb] at hp
          exact Bool.noConfusion hp
        · rw [hm2] at hk
          simp only [List.getElem?_cons_succ] at hk
          have := countTok_pos_of_mem (List.getElem?_mem hk) hp
          omega

theorem counts_side_zero {X M B : List ELine} {a b : ELine} (p : ELine → Bool)
    (hcnt : countTok p (X ++ [a] ++ M ++ [b] ++ B) = 1)
    (hM : countTok p M = 1) (hpa : p a = false) (hpb : p b = false) :
    countTok p X = 0 ∧ countTok p B = 0 := by
  rw [countTok_append, countTok_append, countTok_append, countTok_append,
    countTok_singleton, countTok_singleton, hpa, hpb, hM] at hcnt
  simp at hcnt
  omega

theorem countTok_block_decomp {pre nodes joins : List ELine} {a b : ELine}
    (p : ELine → Bool) (hpre : countTok p pre = 0)
    (hpa : p a = false) (hpb : p b = false) :
    countTok p (pre ++ [a] ++ nodes ++ joins ++ [b]) =
      countTok p (nodes ++ joins) := by
  rw [countTok_append, countTok_append, countTok_append, countTok_append,
    countTok_singleton, countTok_singleton, hpa, hpb, hpre, countTok_append]
  simp

/-- A line owned by something the group `g` transitively contains: the
opening or closing line of a strict descendant group, or the line of an
item whose parent group is `g` itself or a descendant of `g`. -/
def ownedLine (cs : List Container) (items : List Item) (g : Container) :
    ELine → Prop
  | ELine.groupOpen h _ => UpChain cs h g.id
  | ELine.groupClose h _ => UpChain cs h g.id
  | ELine.node iid _ => ∃ it ∈ items, it.id = iid ∧
      ∃ p, it.parentContainerId = some p ∧ InClosure cs p g
  | _ => False

/-- The block-structure specification of an emitted line list: every
group's opening and closing line appear exactly once, the opening line
strictly precedes every line owned by anything the group transitively
contains, and the closing line strictly follows all of them. -/
def emitterBlockSpec (cs : List Container) (items : List Item)
    (L : List ELine) : Prop :=
  ∀ g ∈ cs,
    countTok (isOpenTok g.id) L = 1 ∧ countTok (isCloseTok g.id) L = 1 ∧
    ∃ i j : Nat, i < j ∧
      (∃ d, L[i]? = some (ELine.groupOpen g.id d)) ∧
      (∃ d, L[j]? = some (ELine.groupClose g.id d)) ∧
      ∀ k t, L[k]? = some t → ownedLine cs items g t → i < k ∧ k < j

theorem emitter_spec_core {cs : List Container} {items : List Item}
    {rank : String → Nat} (hv : ValidDiagram cs items rank)
    (pre post : List ELine) (hpre : ∀ t ∈ pre, t = ELine.blank)
    (hpost : ∀ t ∈ post, t = ELine.blank) (d0 : Nat) (T C : List ELine)
    (hTopen : ∀ gid, countTok (isOpenTok gid) T = 0)
    (hTclose : ∀ gid, countTok (isCloseTok gid) T = 0)
    (hCopen : ∀ gid, countTok (isOpenTok gid) C = 0)
    (hCclose : ∀ gid, countTok (isCloseTok gid) C = 0)
    (hTnode : ∀ it ∈ items, ∀ p, it.parentContainerId = some p → p ≠ "" →
      countTok (isNodeTok it.id) T = 0)
    (hCnode : ∀ iid, countTok (isNodeTok iid) C = 0) :
    emitterBlockSpec cs items
      (T ++ ((rootsOf cs).map
        (fun r => genBlock pre cs items cs.length r.id d0 ++ post)).join ++ C) := by
  have hJ := roots_join_counts hv pre post hpre hpost d0
  have hopenL : ∀ ch ∈ cs,
      countTok (isOpenTok ch.id) (T ++ ((rootsOf cs).map
        (fun r => genBlock pre cs items cs.length r.id d0 ++ post)).join ++ C) = 1 := by
    intro ch hch
    rw [countTok_append, countTok_append, hTopen, hCopen, (hJ.1 ch hch).1]
  have hcloseL : ∀ ch ∈ cs,
      countTok (isCloseTok ch.id) (T ++ ((rootsOf cs).map
        (fun r => genBlock pre cs items cs.length r.id d0 ++ post)).join ++ C) = 1 := by
    intro ch hch
    rw [countTok_append, countTok_append, hTclose, hCclose, (hJ.1 ch hch).2]
  have hnodeL : ∀ it ∈ items, ∀ p, it.parentContainerId = some p →
      ∀ q ∈ cs, InClosure cs p q → p ≠ "" →
      countTok (isNodeTok it.id) (T ++ ((rootsOf cs).map
        (fun r => genBlock pre cs items cs.length r.id d0 ++ post)).join ++ C) = 1 := by
    intro it hit p hp q hq hin hpne
    rw [countTok_append, countTok_append, hTnode it hit p hp hpne, hCnode,
      hJ.2 it hit p hp q hq hin]
  intro g hg
  refine ⟨hopenL g hg, hcloseL g hg, ?_⟩
  obtain ⟨A, B, d, f, hf1, hf2, hL⟩ :=
    block_infix hv pre post d0 T C (rank g.id) g hg (le_refl _)
  obtain ⟨f'', rfl⟩ : ∃ f'', f = f'' + 1 := ⟨f - 1, by omega⟩
  have hfind := find?_id_self hv.1 hg
  have hblock : genBlock pre cs items (f'' + 1) g.id d =
      pre ++ [ELine.groupOpen g.id d]
        ++ (items.filter (fun it => it.parentContainerId == some g.id)).map
            (fun it => ELine.node it.id (d + 1))
        ++ ((childrenOf cs g).map
            (fun cc => genBlock pre cs items f'' cc.id (d + 1))).join
        ++ [ELine.groupClose g.id d] := by
    rw [genBlock]
    simp only [hfind]
    rfl
  obtain ⟨nodes, joins, hblock2⟩ : ∃ nodes joins : List ELine,
      genBlock pre cs items (f'' + 1) g.id d =
        pre ++ [ELine.groupOpen g.id d] ++ nodes ++ joins
          ++ [ELine.groupClose g.id d] :=
    ⟨_, _, hblock⟩
  have hLX : T ++ ((rootsOf cs).map
      (fun r => genBlock pre cs items cs.length r.id d0 ++ post)).join ++ C =
      (A ++ pre) ++ [ELine.groupOpen g.id d] ++ (nodes ++ joins)
        ++ [ELine.groupClose g.id d] ++ B := by
    rw [hL, hblock2]
    simp [List.append_assoc]
  have hcnts := genBlock_counts pre hv hpre (f'' + 1) g hg hf2 d
  refine ⟨(A ++ pre).length, (A ++ pre).length + 1 + (nodes ++ joins).length,
    by omega, ⟨d, ?_⟩, ⟨d, ?_⟩, ?_⟩
  · have hL2 : T ++ ((rootsOf cs).map
        (fun r => genBlock pre cs items cs.length r.id d0 ++ post)).join ++ C =
        (A ++ pre) ++ (ELine.groupOpen g.id d ::
          ((nodes ++ joins) ++ (ELine.groupClose g.id d :: B))) := by
      rw [hLX]
      simp [List.append_assoc]
    rw [hL2, List.getElem?_append_right (le_refl (A ++ pre).length)]
    simp
  · have hL3 : T ++ ((rootsOf cs).map
        (fun r => genBlock pre cs items cs.length r.id d0 ++ post)).join ++ C =
        ((A ++ pre) ++ [ELine.groupOpen g.id d] ++ (nodes ++ joins))
          ++ (ELine.groupClose g.id d :: B) := by
      rw [hLX]
      simp [List.append_assoc]
    have hlen : ((A ++ pre) ++ [ELine.groupOpen g.id d] ++ (nodes ++ joins)).length =
        (A ++ pre).length + 1 + (nodes ++ joins).length := by
      simp
      omega
    rw [hL3, List.getElem?_append_right (le_of_eq hlen)]
    rw [hlen]
    simp
  · intro k t hk ho
    cases t with
    | header => exact ho.elim
    | blank => exact ho.elim
    | connHeader => exact ho.elim
    | conn a b lab => exact ho.elim
    | styleHeader => exact ho.elim
    | styleLine iid => exact ho.elim
    | groupOpen h dh =>
      have hch : UpChain cs h g.id := ho
      obtain ⟨ch, hchmem, hchid⟩ := closure_owner hg (Or.inr hch)
      have hne : h ≠ g.id := upChain_ne hv hch
      have hglobal := hopenL ch hchmem
      rw [hchid] at hglobal
      have hblockcnt : countTok (isOpenTok h)
          (genBlock pre cs items (f'' + 1) g.id d) = 1 :=
        ((hcnts.1 h).1 (Or.inr hch)).1
      have hpre0 : countTok (isOpenTok h) pre = 0 :=
        countTok_eq_zero (fun t ht => by rw [hpre t ht]; rfl)
      have hpa : isOpenTok h (ELine.groupOpen g.id d) = false := by
        simp [isOpenTok, Ne.symm hne]
      have hpb : isOpenTok h (ELine.groupClose g.id d) = false := rfl
      have hMcnt : countTok (isOpenTok h) (nodes ++ joins) = 1 := by
        rw [hblock2] at hblockcnt
        rwa [countTok_block_decomp _ hpre0 hpa hpb] at hblockcnt
      rw [hLX] at hglobal hk
      obtain ⟨hX0, hB0⟩ := counts_side_zero _ hglobal hMcnt hpa hpb
      exact tok_position rfl _ hX0 hB0 hpa hpb k _ hk (by simp [isOpenTok])
    | groupClose h dh =>
      have hch : UpChain cs h g.id := ho
      obtain ⟨ch, hchmem, hchid⟩ := closure_owner hg (Or.inr hch)
      have hne : h ≠ g.id := upChain_ne hv hch
      have hglobal := hcloseL ch hchmem
      rw [hchid] at hglobal
      have hblockcnt : countTok (isCloseTok h)
          (genBlock pre cs items (f'' + 1) g.id d) = 1 :=
        ((hcnts.1 h).1 (Or.inr hch)).2
      have hpre0 : countTok (isCloseTok h) pre = 0 :=
        countTok_eq_zero (fun t ht => by rw [hpre t ht]; rfl)
      have hpa : isCloseTok h (ELine.groupOpen g.id d) = false := rfl
      have hpb : isCloseTok h (ELine.groupClose g.id d) = false := by
        simp [isCloseTok, Ne.symm hne]
      have hMcnt : countTok (isCloseTok h) (nodes ++ joins) = 1 := by
        rw [hblock2] at hblockcnt
        rwa [countTok_block_decomp _ hpre0 hpa hpb] at hblockcnt
      rw [hLX] at hglobal hk
      obtain ⟨hX0, hB0⟩ := counts_side_zero _ hglobal hMcnt hpa hpb
      exact tok_position rfl _ hX0 hB0 hpa hpb k _ hk (by simp [isCloseTok])
    | node iid dh =>
      obtain ⟨it, hit, hitid, p, hp, hin⟩ := ho
      have hpne : p ≠ "" := by
        obtain ⟨cp, hcp, hcpid⟩ := closure_owner hg hin
        exact hcpid ▸ hv.2.2.1 cp hcp
      have hglobal := hnodeL it hit p hp g hg hin hpne
      rw [hitid] at hglobal
      have hblockcnt : countTok (isNodeTok iid)
          (genBlock pre cs items (f'' + 1) g.id d) = 1 := by
        have := (hcnts.2 it hit).1 ⟨p, hp, hin⟩
        rwa [hitid] at this
      have hpre0 : countTok (isNodeTok iid) pre = 0 :=
        countTok_eq_zero (fun t ht => by rw [hpre t ht]; rfl)
      have hpa : isNodeTok iid (ELine.groupOpen g.id d) = false := rfl
      have hpb : isNodeTok iid (ELine.groupClose g.id d) = false := rfl
      have hMcnt : countTok (isNodeTok iid) (nodes ++ joins) = 1 := by
        rw [hblock2] at hblockcnt
        rwa [countTok_block_decomp _ hpre0 hpa hpb] at hblockcnt
      rw [hLX] at hglobal hk
      obtain ⟨hX0, hB0⟩ := counts_side_zero _ hglobal hMcnt hpa hpb
      exact tok_position rfl _ hX0 hB0 hpa hpb k _ hk (by simp [isNodeTok])

/-- **C4.** For every well-formed diagram (distinct nonempty container
ids, distinct item ids, parent references resolving within the list, and
an acyclicity rank), each of the two emitters — the eraser DSL exporter
(`exportContainerRecursive`) and the Mermaid flowchart exporter
(`exportFlowchartContainerRecursive`) — produces output in which every
group is emitted exactly once (its opening and its closing line each
occur exactly once), the opening line strictly precedes every line
emitted for anything the group transitively contains (its nodes' lines
and its descendant groups' opening and closing lines), and the closing
line strictly follows all of them. -/
theorem c4_emitters_visit_groups_once {cs : List Container}
    {items : List Item} {rank : String → Nat} (conns : List Connection)
    (hv : ValidDiagram cs items rank) :
    emitterBlockSpec cs items (exportEraserLines cs items conns) ∧
    emitterBlockSpec cs items (exportFlowchartLines cs items conns) := by
  constructor
  · rw [exportEraserLines_decomp]
    exact emitter_spec_core hv [] [ELine.blank]
      (by intro t ht; cases ht) (by intro t ht; simp at ht; exact ht) 0
      (eraserTopPart items) (eraserConnPart conns)
      (fun gid => (eraserTopPart_open items gid).1)
      (fun gid => (eraserTopPart_open items gid).2)
      (fun gid => (eraserConnPart_zero conns gid).1)
      (fun gid => (eraserConnPart_zero conns gid).2.1)
      (fun it hit p hp hpne => eraserTopPart_node hv.2.1 hit hp hpne)
      (fun iid => (eraserConnPart_zero conns iid).2.2)
  · rw [exportFlowchartLines_decomp]
    exact emitter_spec_core hv [ELine.blank] []
      (by intro t ht; simp at ht; exact ht) (by intro t ht; cases ht) 1
      (flowTopPart items) (flowTailPart items conns)
      (fun gid => (flowTopPart_open items gid).1)
      (fun gid => (flowTopPart_open items gid).2)
      (fun gid => (flowTailPart_zero items conns gid).1)
      (fun gid => (flowTailPart_zero items conns gid).2.1)
      (fun it hit p hp hpne => flowTopPart_node hv.2.1 hit hp hpne)
      (fun iid => (flowTailPart_zero items conns iid).2.2)

/-- Outer group of the concrete emitter example. -/
def c4Outer : Container :=
  { id := "g1", name := "VPC", color := "#8C4FFF", borderStyle := some "solid"
    x := 0, y := 0, width := 600, height := 400, parentContainerId := none
    ctype := "container" }

/-- Inner group of the concrete emitter example, nested in the outer one. -/
def c4Inner : Container :=
  { id := "g2", name := "Subnet", color := "#00A4A6", borderStyle := some "dashed"
    x := 40, y := 40, width := 300, height := 200, parentContainerId := some "g1"
    ctype := "container" }

/-- The single item of the concrete emitter example, inside the inner group. -/
def c4Item1 : Item :=
  { id := "i1", name := "EC2", customName := none, color := "#ED7100"
    category := "Compute", x := 80, y := 80, parentContainerId := some "g2"
    itype := "service" }

def c4Containers : List Container := [c4Outer, c4Inner]

def c4Items : List Item := [c4Item1]

/-- A rank witnessing acyclicity of the concrete emitter example. -/
def c4Rank : String → Nat := fun s => if s = "g1" then 0 else 1

/-- The concrete nested diagram satisfies the well-formedness hypotheses,
and both emitters' outputs on it satisfy the block-structure
specification. -/
theorem c4_witness :
    ValidDiagram c4Containers c4Items c4Rank ∧
    emitterBlockSpec c4Containers c4Items
      (exportEraserLines c4Containers c4Items []) ∧
    emitterBlockSpec c4Containers c4Items
      (exportFlowchartLines c4Containers c4Items []) := by
  have hv : ValidDiagram c4Containers c4Items c4Rank := by
    unfold ValidDiagram
    decide
  exact ⟨hv, (c4_emitters_visit_groups_once [] hv).1,
    (c4_emitters_visit_groups_once [] hv).2⟩
